import Mathlib

/-!
Shallow embedding of `rally/plugins/common/verification/reporters.py`.

Python strings are modelled as `List Char` (`Str`), Python dicts as
insertion-ordered association lists, numeric durations as `ℚ`, and the
host language's float-to-string formatting (`"%s" % x`) as an explicit
parameter `frepr : ℚ → Str`.  External collaborators (the template
renderer and the JSON serializer) are likewise parameters.
-/

abbrev Str := List Char

/-- Membership test of a key in an association list (`k in d`). -/
def hasKey (l : List (Str × α)) (k : Str) : Bool :=
  l.any (fun p => p.1 == k)

/-- First value stored under a key (`d[k]` for reading). -/
def alistGet? (l : List (Str × α)) (k : Str) : Option α :=
  (l.find? (fun p => p.1 == k)).map Prod.snd

/-- Number of entries carrying a key (1 or 0 for a genuine dict). -/
def countKey (l : List (Str × α)) (k : Str) : Nat :=
  l.countP (fun p => p.1 == k)

/-- Apply `f` to the value stored under `k`, keeping the entry order. -/
def alistUpdate (l : List (Str × α)) (k : Str) (f : α → α) : List (Str × α) :=
  l.map (fun p => if p.1 == k then (p.1, f p.2) else p)

/-- Python dict item assignment `d[k] = v`: overwrite in place when the
key exists, otherwise append at the end (insertion order). -/
def alistSet (l : List (Str × α)) (k : Str) (v : α) : List (Str × α) :=
  if hasKey l k then alistUpdate l k (fun _ => v) else l ++ [(k, v)]

/-- Kernel-computable subtraction on `ℚ` (the library's `Rat.sub` is
`@[irreducible]`); `ratSub_eq` below certifies it agrees with `-`. -/
def ratSub (a b : ℚ) : ℚ :=
  mkRat (a.num * (b.den : Int) - b.num * (a.den : Int)) (a.den * b.den)

theorem ratSub_eq (a b : ℚ) : ratSub a b = a - b := by
  have ha : ((a.den : ℚ)) ≠ 0 := Nat.cast_ne_zero.mpr a.den_nz
  have hb : ((b.den : ℚ)) ≠ 0 := Nat.cast_ne_zero.mpr b.den_nz
  rw [ratSub, Rat.mkRat_eq_div]
  push_cast
  rw [show a - b = (a.num : ℚ) / a.den - (b.num : ℚ) / b.den by
    rw [Rat.num_div_den, Rat.num_div_den]]
  rw [div_sub_div _ _ ha hb]
  ring_nf

/-- Python's default whitespace class for `str.strip()` (restricted to the
ASCII whitespace characters). -/
def isPySpace (c : Char) : Bool :=
  c == ' ' || c == '\t' || c == '\n' || c == '\r' || c == '\x0b' || c == '\x0c'

/-- `str.strip()`: remove leading and trailing whitespace. -/
def pyStrip (s : Str) : Str :=
  ((s.dropWhile isPySpace).reverse.dropWhile isPySpace).reverse

/-- Remove a literal prefix, returning the remainder on success. -/
def stripPre? : Str → Str → Option Str
  | s, [] => some s
  | [], _ :: _ => none
  | c :: s, p :: ps => if c == p then stripPre? s ps else none

def skipPhrase : Str := "Skipped until Bug:".toList

def resolvedPhrase : Str := " is resolved".toList

/--
`SKIP_RE = re.compile("Skipped until Bug: ?(?P<bug_number>\d+) is resolved.")`
applied with `.match` (anchored at the start only; trailing text allowed).
The pattern is deterministic, so no backtracking is needed: after the
literal prefix, `" ?"` can consume a space only if one is present (if a
space is present but not consumed, the next char cannot be a digit), the
greedy `\d+` is a maximal digit run (shortening it would leave a digit
where `" is resolved"` expects a space), and the final `.` matches any
single character except a newline.  Returns the captured digit group.
-/
def skipTail (r0 : Str) : Option Str :=
  let r1 := if r0.head? = some ' ' then r0.tail else r0
  let ds := r1.takeWhile Char.isDigit
  if ds = [] then none
  else
    match stripPre? (r1.dropWhile Char.isDigit) resolvedPhrase with
    | none => none
    | some [] => none
    | some (c :: _) => if c = '\n' then none else some ds

def skipMatch (s : Str) : Option Str :=
  match stripPre? s skipPhrase with
  | none => none
  | some r0 => skipTail r0

/-- `LP_BUG_LINK = "https://launchpad.net/bugs/%s"` instantiated at `d`. -/
def lpBugLink (d : Str) : Str := "https://launchpad.net/bugs/".toList ++ d

/--
`re.sub(pat, rep, s)` for a pattern that is a literal string (the code
only ever substitutes the captured digit run, in which every character is
a regex-literal): replace every occurrence, scanning left to right,
without rescanning the replacement text.  Never called with an empty
pattern (the captured group of `SKIP_RE` is non-empty).
-/
def replaceFuel (pat rep : Str) : Nat → Str → Str
  | _, [] => []
  | 0, s => s
  | fuel + 1, c :: rest =>
    if pat ≠ [] ∧ pat.isPrefixOf (c :: rest) then
      rep ++ replaceFuel pat rep fuel ((c :: rest).drop pat.length)
    else
      c :: replaceFuel pat rep fuel rest

def pyReplaceAll (s pat rep : Str) : Str := replaceFuel pat rep s.length s

theorem replaceFuel_congr (pat rep : Str) :
    ∀ f1 f2 s, s.length ≤ f1 → s.length ≤ f2 →
      replaceFuel pat rep f1 s = replaceFuel pat rep f2 s := by
  intro f1
  induction f1 with
  | zero =>
    intro f2 s h1 _
    have : s = [] := List.eq_nil_of_length_eq_zero (Nat.le_zero.mp h1)
    subst this
    cases f2 <;> rfl
  | succ g1 ih =>
    intro f2 s h1 h2
    cases s with
    | nil => cases f2 <;> rfl
    | cons c rest =>
    cases f2 with
    | zero => simp only [List.length_cons] at h2; omega
    | succ g2 =>
      simp only [replaceFuel]
      by_cases h : pat ≠ [] ∧ pat.isPrefixOf (c :: rest)
      · simp only [if_pos h]
        have hp : 0 < pat.length := List.length_pos.mpr h.1
        have hd : ((c :: rest).drop pat.length).length ≤ g1 := by
          simp only [List.length_drop, List.length_cons]
          simp only [List.length_cons] at h1
          omega
        have hd2 : ((c :: rest).drop pat.length).length ≤ g2 := by
          simp only [List.length_drop, List.length_cons]
          simp only [List.length_cons] at h2
          omega
        rw [ih _ _ hd hd2]
      · simp only [if_neg h]
        have hr : rest.length ≤ g1 := by simp only [List.length_cons] at h1; omega
        have hr2 : rest.length ≤ g2 := by simp only [List.length_cons] at h2; omega
        rw [ih _ _ hr hr2]

/-- Unfolding rule: the pattern matches at the head. -/
theorem pyReplaceAll_match (s pat rep : Str) (hp : pat ≠ [])
    (hpre : pat.isPrefixOf s) :
    pyReplaceAll s pat rep = rep ++ pyReplaceAll (s.drop pat.length) pat rep := by
  match s with
  | [] =>
    cases pat with
    | nil => exact absurd rfl hp
    | cons p ps => simp [List.isPrefixOf] at hpre
  | c :: rest =>
    have hp1 : 0 < pat.length := List.length_pos.mpr hp
    show replaceFuel pat rep (rest.length + 1) (c :: rest) = _
    rw [replaceFuel, if_pos ⟨hp, hpre⟩]
    congr 1
    apply replaceFuel_congr
    · simp only [List.length_drop, List.length_cons]
      omega
    · exact Nat.le_refl _

/-- Unfolding rule: no match at the head. -/
theorem pyReplaceAll_skip (c : Char) (rest pat rep : Str)
    (h : ¬(pat ≠ [] ∧ pat.isPrefixOf (c :: rest))) :
    pyReplaceAll (c :: rest) pat rep = c :: pyReplaceAll rest pat rep := by
  show replaceFuel pat rep (rest.length + 1) (c :: rest) = _
  rw [replaceFuel, if_neg h]
  rfl


/--
The reason-rewriting step of `JSONReporter._generate`:
```
if reason:
    match = SKIP_RE.match(reason)
    if match:
        link = LP_BUG_LINK % match.group("bug_number")
        reason = re.sub(match.group("bug_number"), link, reason)
```
-/
def rewriteReason (reason : Str) : Str :=
  if reason = [] then reason
  else
    match skipMatch reason with
    | some d => pyReplaceAll reason d (lpBugLink d)
    | none => reason

/--
The details construction of `JSONReporter._generate`:
```
sep = "\n\n" if reason and traceback else ""
d = (reason + sep + traceback.strip()) or None
```
(`none` models both "d is None" and "details key omitted").
-/
def detailsOf (reason0 tb : Str) : Option Str :=
  let reason := rewriteReason reason0
  let sep := if reason ≠ [] ∧ tb ≠ [] then "\n\n".toList else []
  let d := reason ++ sep ++ pyStrip tb
  if d = [] then none else some d

/-- One per-test result inside a verification run (`v.tests[test_id]`).
Optional fields (`tags`, `reason`, `traceback`) are read with defaults
`[]` / `""` in the code, so they are modelled total. -/
structure TestResult where
  name : Str
  tags : List Str
  status : Str
  duration : ℚ
  reason : Str
  traceback : Str
deriving DecidableEq

/-- One verification run record.  Timestamps are kept as already-formatted
strings: `strftime` formatting is external presentation and no claim
concerns it.  `run_args` is an opaque payload. -/
structure VerificationRun where
  uuid : Str
  created_at : Str
  updated_at : Str
  status : Str
  run_args : Str
  tests_count : Nat
  tests_duration : ℚ
  skipped : Nat
  success : Nat
  expected_failures : Nat
  unexpected_success : Nat
  failures : Nat
  tests : List (Str × TestResult)
deriving DecidableEq

/-- The summary attributes copied verbatim into `verifications[v.uuid]`. -/
structure RunSummary where
  started_at : Str
  finished_at : Str
  status : Str
  run_args : Str
  tests_count : Nat
  tests_duration : ℚ
  skipped : Nat
  success : Nat
  expected_failures : Nat
  unexpected_success : Nat
  failures : Nat
deriving DecidableEq

/-- `tests[test_id]["by_verification"][uuid]` as produced by `_generate`:
`details = none` models the key being absent. -/
structure RunRecord where
  status : Str
  duration : ℚ
  details : Option Str
deriving DecidableEq

/-- `tests[test_id]` as produced by `_generate`. -/
structure TestEntry where
  tags : List Str
  name : Str
  by_verification : List (Str × RunRecord)
deriving DecidableEq

/-- The raw report returned by `JSONReporter._generate`. -/
structure Report where
  verifications : List (Str × RunSummary)
  tests : List (Str × TestEntry)
deriving DecidableEq

def startsWithId (tag : Str) : Bool := "id-".toList.isPrefixOf tag

/--
`sorted(result.get("tags", []), reverse=True, key=lambda tag: tag.startswith("id-"))`.
Python's sort is stable, and `reverse=True` keeps elements with equal keys
in their original relative order; for a Boolean key this is exactly: the
`True`-keyed elements first in original order, then the `False`-keyed
elements in original order.
-/
def sortTags (tags : List Str) : List Str :=
  tags.filter startsWithId ++ tags.filter (fun t => !startsWithId t)

def mkRunRecord (result : TestResult) : RunRecord :=
  { status := result.status
    duration := result.duration
    details := detailsOf result.reason result.traceback }

/--
The per-test body of the loop in `JSONReporter._generate`:
```
if test_id not in tests:
    tags = sorted(...); tests[test_id] = {"tags": tags, "name": ..., "by_verification": {}}
tests[test_id]["by_verification"][v.uuid] = {"status": ..., "duration": ...}
... (reason/traceback -> optional "details")
```
The record is assembled before insertion; the code inserts
`status`/`duration` first and then conditionally adds `details`, which
produces the same mapping.
-/
def processTest (uuid : Str) (tests : List (Str × TestEntry)) (tid : Str)
    (result : TestResult) : List (Str × TestEntry) :=
  let tests1 :=
    if hasKey tests tid then tests
    else tests ++ [(tid, { tags := sortTags result.tags
                           name := result.name
                           by_verification := [] })]
  alistUpdate tests1 tid (fun e =>
    { e with by_verification := alistSet e.by_verification uuid (mkRunRecord result) })

/-- Processing of all tests of one run, in the run's own test order. -/
def addRun (tests : List (Str × TestEntry)) (v : VerificationRun) :
    List (Str × TestEntry) :=
  v.tests.foldl (fun ts p => processTest v.uuid ts p.1 p.2) tests

def mkSummary (v : VerificationRun) : RunSummary :=
  { started_at := v.created_at
    finished_at := v.updated_at
    status := v.status
    run_args := v.run_args
    tests_count := v.tests_count
    tests_duration := v.tests_duration
    skipped := v.skipped
    success := v.success
    expected_failures := v.expected_failures
    unexpected_success := v.unexpected_success
    failures := v.failures }

/-- `JSONReporter._generate`: one pass over the runs, building the ordered
`verifications` mapping and the aggregated `tests` mapping. -/
def jsonGenerateRaw (runs : List VerificationRun) : Report :=
  runs.foldl
    (fun rep v =>
      { verifications := alistSet rep.verifications v.uuid (mkSummary v)
        tests := addRun rep.tests v })
    { verifications := [], tests := [] }

/-- The dictionary returned by a reporter's `generate`: at most one of the
two shapes `{"print": s}` and `{"files": {dest: s}, "open": dest}` is
populated; a `none` field models the key being absent. -/
structure GenOutput where
  print : Option Str
  files : Option (Str × Str)
  openDest : Option Str
deriving DecidableEq

/-- The reporter's constructor arguments: the verification runs and the
optional output destination string. -/
structure ReporterInput where
  verifications : List VerificationRun
  output_destination : Option Str
deriving DecidableEq

/-- The common tail of every `generate`:
```
if self.output_destination:
    return {"files": {self.output_destination: raw_report},
            "open": self.output_destination}
else:
    return {"print": raw_report}
```
Python truthiness: both `None` and the empty string take the `else` branch.
-/
def deliver (dest : Option Str) (raw : Str) : GenOutput :=
  match dest with
  | some d =>
    if d = [] then { print := some raw, files := none, openDest := none }
    else { print := none, files := some (d, raw), openDest := some d }
  | none => { print := some raw, files := none, openDest := none }

/-- `JSONReporter.generate`; `dumps` stands for `json.dumps(·, indent=4)`,
an external serializer held abstract. -/
def jsonGenerate (dumps : Report → Str) (inp : ReporterInput) : GenOutput :=
  deliver inp.output_destination (dumps (jsonGenerateRaw inp.verifications))

/-- An entry of the per-test `durations` list in `HTMLReporter.generate`:
either the raw float appended by `durations.append(...)` or the literal
string `"0"` written by `durations[-1] = "0"`.  (In Python the list is
heterogeneous; `float(x)` maps `"0"` to `0.0`, and `x == "0"` is `False`
for every float.) -/
inductive DurEntry
  | num (q : ℚ)
  | zeroStr
deriving DecidableEq

def durFloat : DurEntry → ℚ
  | .num q => q
  | .zeroStr => 0

def durIsZeroStr : DurEntry → Bool
  | .num _ => false
  | .zeroStr => true

/-- The value of a per-run `duration` field after HTML post-processing:
either the untouched float or a replacement string. -/
inductive DurationOut
  | num (q : ℚ)
  | str (s : Str)
deriving DecidableEq

/-- `"%s" % x` for an entry of the durations list. -/
def durEntryStr (frepr : ℚ → Str) : DurEntry → Str
  | .num q => frepr q
  | .zeroStr => "0".toList

/-- A per-run record as mutated by `HTMLReporter.generate`: every record
ends up with an explicit `details` key (`none` models JSON `null`). -/
structure HtmlRunRecord where
  status : Str
  duration : DurationOut
  details : Option Str
deriving DecidableEq

/-- The first per-test pass of `HTMLReporter.generate`:
```
test["has_details"] = False
for test_info in test["by_verification"].values():
    if "details" not in test_info:
        test_info["details"] = None
    elif not test["has_details"]:
        test["has_details"] = True
```
-/
def htmlDetailsStep (st : Bool × List (Str × HtmlRunRecord))
    (p : Str × RunRecord) : Bool × List (Str × HtmlRunRecord) :=
  match p.2.details with
  | none => (st.1, st.2 ++ [(p.1, { status := p.2.status
                                    duration := .num p.2.duration
                                    details := none })])
  | some d => (true, st.2 ++ [(p.1, { status := p.2.status
                                      duration := .num p.2.duration
                                      details := some d })])

def htmlDetailsPass (bv : List (Str × RunRecord)) :
    Bool × List (Str × HtmlRunRecord) :=
  bv.foldl htmlDetailsStep (false, [])

/-- The body of the per-uuid durations loop of `HTMLReporter.generate`:
```
if uuid in test["by_verification"]:
    durations.append(test["by_verification"][uuid]["duration"])
    if float(durations[-1]) < 0.001:
        durations[-1] = "0"
        test["by_verification"][uuid]["duration"] = ""
    if len(durations) > 1 and not (durations[0] == "0" and durations[-1] == "0"):
        diff = float(durations[-1]) - float(durations[0])
        result = "%s (" % durations[-1]
        if diff >= 0:
            result += "+"
        result += "%s)" % diff
        test["by_verification"][uuid]["duration"] = result
```
State: the growing `durations` list and the mutated `by_verification`.
A record whose duration is already a string can only be re-read if the
same uuid occurred twice in the key list, which cannot happen for the
keys of a dict; that unreachable case leaves the state unchanged.
-/
def htmlDurStepNum (frepr : ℚ → Str) (durs : List DurEntry)
    (bv : List (Str × HtmlRunRecord)) (uuid : Str) (q : ℚ) :
    List DurEntry × List (Str × HtmlRunRecord) :=
  let entry : DurEntry := if q < mkRat 1 1000 then .zeroStr else .num q
  let bv1 :=
    if q < mkRat 1 1000 then
      alistUpdate bv uuid (fun r => { r with duration := .str [] })
    else bv
  match durs with
  | [] => (durs ++ [entry], bv1)
  | d0 :: _ =>
    if durIsZeroStr d0 ∧ durIsZeroStr entry then (durs ++ [entry], bv1)
    else
      let diff := ratSub (durFloat entry) (durFloat d0)
      let fieldStr := durEntryStr frepr entry ++ " (".toList ++
        (if 0 ≤ diff then "+".toList else []) ++ frepr diff ++ ")".toList
      (durs ++ [entry],
       alistUpdate bv1 uuid (fun r => { r with duration := .str fieldStr }))

def htmlDurStep (frepr : ℚ → Str) (st : List DurEntry × List (Str × HtmlRunRecord))
    (uuid : Str) : List DurEntry × List (Str × HtmlRunRecord) :=
  match alistGet? st.2 uuid with
  | none => st
  | some rec =>
    match rec.duration with
    | .str _ => st
    | .num q => htmlDurStepNum frepr st.1 st.2 uuid q

/-- The durations loop: `for uuid in uuids: ...`, iterating the ordered
run identifiers.  Returns the final `durations` list and the mutated
`by_verification` mapping. -/
def htmlDurPass (frepr : ℚ → Str) (uuids : List Str)
    (bv : List (Str × HtmlRunRecord)) :
    List DurEntry × List (Str × HtmlRunRecord) :=
  uuids.foldl (htmlDurStep frepr) ([], bv)

/-- A `tests[...]` value after HTML post-processing. -/
structure HtmlTestEntry where
  tags : List Str
  name : Str
  has_details : Bool
  by_verification : List (Str × HtmlRunRecord)
deriving DecidableEq

/-- Both per-test passes of `HTMLReporter.generate`; also returns the
final `durations` list, whose length feeds `show_comparison_note`. -/
def htmlProcessEntry (frepr : ℚ → Str) (uuids : List Str) (e : TestEntry) :
    HtmlTestEntry × List DurEntry :=
  let det := htmlDetailsPass e.by_verification
  let dp := htmlDurPass frepr uuids det.2
  ({ tags := e.tags, name := e.name, has_details := det.1
     by_verification := dp.2 }, dp.1)

/-- The template context assembled by `HTMLReporter.generate`. -/
structure HtmlReport where
  uuids : List Str
  verifications : List (Str × RunSummary)
  tests : List (Str × HtmlTestEntry)
  show_comparison_note : Bool
deriving DecidableEq

/-- `HTMLReporter.generate` up to (but not including) template rendering:
aggregate with `_generate`, post-process every test, and set
`show_comparison_note` when some test accumulated more than two
durations (the flag, once set, is never cleared, so it is the
disjunction over the tests). -/
def htmlGenerateReport (frepr : ℚ → Str) (runs : List VerificationRun) :
    HtmlReport :=
  let rep := jsonGenerateRaw runs
  let uuids := rep.verifications.map Prod.fst
  let processed := rep.tests.map (fun p => (p.1, htmlProcessEntry frepr uuids p.2))
  { uuids := uuids
    verifications := rep.verifications
    tests := processed.map (fun p => (p.1, p.2.1))
    show_comparison_note := processed.any (fun p => p.2.2.length > 2) }

/-- `HTMLReporter.generate` (and, with `includeLibs = true`,
`HTMLStaticReporter.generate`): `render` stands for the external
`utils.get_template("verification/report.html").render`, `dumps` for the
`json.dumps` applied to the context. -/
def htmlGenerate (render : Str → Bool → Str) (dumps : HtmlReport → Str)
    (frepr : ℚ → Str) (includeLibs : Bool) (inp : ReporterInput) : GenOutput :=
  deliver inp.output_destination
    (render (dumps (htmlGenerateReport frepr inp.verifications)) includeLibs)

/-- `HTMLReporter.INCLUDE_LIBS = False`. -/
def htmlIncludeLibs : Bool := false

/-- `HTMLStaticReporter.INCLUDE_LIBS = True`. -/
def htmlStaticIncludeLibs : Bool := true

/-- Lookup of one post-processed per-run duration field:
`tests[tid]["by_verification"][u]["duration"]`. -/
def durationFieldOf (rep : HtmlReport) (tid u : Str) : Option DurationOut :=
  match alistGet? rep.tests tid with
  | none => none
  | some e =>
    match alistGet? e.by_verification u with
    | none => none
    | some r => some r.duration

/-- A concrete stand-in for Python's `"%s" % x` float formatting, fixed on
the values the concrete scenarios reach (`str(2.0) = "2.0"`,
`str(-2.0) = "-2.0"`). -/
def sampleRepr (q : ℚ) : Str :=
  if q = 2 then "2.0".toList
  else if q = -2 then "-2.0".toList
  else "?".toList

/-- A minimal passing test result with the given duration. -/
def mkRes (q : ℚ) : TestResult :=
  { name := "n".toList, tags := [], status := "success".toList
    duration := q, reason := [], traceback := [] }

/-- A minimal run with uuid `u` containing the single test `"t"`. -/
def mkRun (u : Str) (q : ℚ) : VerificationRun :=
  { uuid := u, created_at := [], updated_at := [], status := "finished".toList
    run_args := [], tests_count := 1, tests_duration := q, skipped := 0
    success := 1, expected_failures := 0, unexpected_success := 0
    failures := 0, tests := [("t".toList, mkRes q)] }

/-- Two runs of test `"t"` with durations `[0.0005, 2.0]`. -/
def demoRunsC1 : List VerificationRun :=
  [mkRun "a".toList (mkRat 1 2000), mkRun "b".toList 2]

/-- Two runs of test `"t"` with durations `[2.0, 0.0005]`. -/
def demoRunsC7 : List VerificationRun :=
  [mkRun "a".toList 2, mkRun "b".toList (mkRat 1 2000)]

section AListLemmas

variable {α : Type}

theorem hasKey_cons (p : Str × α) (t : List (Str × α)) (k : Str) :
    hasKey (p :: t) k = (p.1 == k || hasKey t k) := rfl

theorem alistUpdate_cons (p : Str × α) (t : List (Str × α)) (k : Str) (f : α → α) :
    alistUpdate (p :: t) k f =
      (if p.1 == k then (p.1, f p.2) else p) :: alistUpdate t k f := rfl

theorem alistGet?_cons_pos {x : Str × α} {t : List (Str × α)} {k : Str}
    (hp : (x.1 == k) = true) : alistGet? (x :: t) k = some x.2 := by
  unfold alistGet?
  rw [List.find?_cons_of_pos (p := fun q => q.1 == k) t hp]
  rfl

theorem alistGet?_cons_neg {x : Str × α} {t : List (Str × α)} {k : Str}
    (hp : ¬(x.1 == k) = true) : alistGet? (x :: t) k = alistGet? t k := by
  unfold alistGet?
  rw [List.find?_cons_of_neg (p := fun q => q.1 == k) t hp]

theorem countKey_nil (k : Str) : countKey ([] : List (Str × α)) k = 0 := rfl

theorem countKey_append (l m : List (Str × α)) (k : Str) :
    countKey (l ++ m) k = countKey l k + countKey m k :=
  List.countP_append _ _ _

theorem countKey_single (k' k : Str) (v : α) :
    countKey [(k', v)] k = if k' = k then 1 else 0 := by
  by_cases h : k' = k
  · subst h
    simp [countKey, List.countP_cons]
  · simp [countKey, List.countP_cons, beq_eq_false_iff_ne.mpr h, h]

theorem alistGet?_eq_none {l : List (Str × α)} {k : Str} :
    alistGet? l k = none ↔ hasKey l k = false := by
  induction l with
  | nil => simp [alistGet?, hasKey]
  | cons p t ih =>
    by_cases hp : p.1 == k
    · rw [alistGet?_cons_pos hp]
      simp [hasKey_cons, hp]
    · rw [alistGet?_cons_neg hp]
      simp only [hasKey_cons, (by simpa using hp : (p.1 == k) = false),
        Bool.false_or]
      exact ih

theorem hasKey_of_get? {l : List (Str × α)} {k : Str} {v : α}
    (h : alistGet? l k = some v) : hasKey l k = true := by
  cases hk : hasKey l k
  · rw [alistGet?_eq_none.mpr hk] at h
    cases h
  · rfl

theorem get?_isSome_of_hasKey {l : List (Str × α)} {k : Str}
    (h : hasKey l k = true) : ∃ v, alistGet? l k = some v := by
  cases hv : alistGet? l k with
  | none => rw [alistGet?_eq_none.mp hv] at h; cases h
  | some v => exact ⟨v, rfl⟩

theorem alistGet?_append_left {l m : List (Str × α)} {k : Str}
    (h : hasKey l k = true) : alistGet? (l ++ m) k = alistGet? l k := by
  obtain ⟨v, hv⟩ := get?_isSome_of_hasKey h
  unfold alistGet? at hv ⊢
  rw [List.find?_append]
  cases hf : l.find? (fun p => p.1 == k) with
  | none => rw [hf] at hv; cases hv
  | some w => rfl

theorem alistGet?_append_right {l m : List (Str × α)} {k : Str}
    (h : hasKey l k = false) : alistGet? (l ++ m) k = alistGet? m k := by
  have hn : l.find? (fun p => p.1 == k) = none := by
    have h2 := alistGet?_eq_none.mpr h
    unfold alistGet? at h2
    cases hf : l.find? (fun p => p.1 == k) with
    | none => rfl
    | some w => rw [hf] at h2; cases h2
  unfold alistGet?
  rw [List.find?_append, hn]
  rfl

theorem keys_alistUpdate (l : List (Str × α)) (k : Str) (f : α → α) :
    (alistUpdate l k f).map Prod.fst = l.map Prod.fst := by
  induction l with
  | nil => rfl
  | cons p t ih =>
    rw [alistUpdate_cons, List.map_cons, List.map_cons, ih]
    by_cases hp : p.1 == k
    · rw [if_pos hp]
    · rw [if_neg hp]

theorem countKey_alistUpdate (l : List (Str × α)) (k k' : Str) (f : α → α) :
    countKey (alistUpdate l k f) k' = countKey l k' := by
  unfold countKey alistUpdate
  rw [List.countP_map]
  apply List.countP_congr
  intro x _
  by_cases hx : x.1 == k <;> simp [Function.comp, hx]

theorem hasKey_alistUpdate (l : List (Str × α)) (k k' : Str) (f : α → α) :
    hasKey (alistUpdate l k f) k' = hasKey l k' := by
  induction l with
  | nil => rfl
  | cons p t ih =>
    rw [alistUpdate_cons, hasKey_cons, hasKey_cons, ih]
    by_cases hp : p.1 == k
    · rw [if_pos hp]
    · rw [if_neg hp]

theorem alistGet?_alistUpdate_self (l : List (Str × α)) (k : Str) (f : α → α) :
    alistGet? (alistUpdate l k f) k = (alistGet? l k).map f := by
  induction l with
  | nil => rfl
  | cons p t ih =>
    by_cases hp : p.1 == k
    · rw [alistUpdate_cons, if_pos hp,
        alistGet?_cons_pos (x := (p.1, f p.2)) (by simpa using hp),
        alistGet?_cons_pos hp]
      rfl
    · rw [alistUpdate_cons, if_neg hp, alistGet?_cons_neg hp,
        alistGet?_cons_neg hp]
      exact ih

theorem alistGet?_alistUpdate_other (l : List (Str × α)) {k k' : Str}
    (h : k' ≠ k) (f : α → α) :
    alistGet? (alistUpdate l k f) k' = alistGet? l k' := by
  induction l with
  | nil => rfl
  | cons p t ih =>
    by_cases hp : p.1 == k
    · rw [alistUpdate_cons, if_pos hp]
      by_cases hp' : p.1 == k'
      · exfalso
        rw [beq_iff_eq] at hp hp'
        exact h (by rw [← hp', hp])
      · rw [alistGet?_cons_neg (x := (p.1, f p.2)) (by simpa using hp'),
          alistGet?_cons_neg hp']
        exact ih
    · rw [alistUpdate_cons, if_neg hp]
      by_cases hp' : p.1 == k'
      · rw [alistGet?_cons_pos hp', alistGet?_cons_pos hp']
      · rw [alistGet?_cons_neg hp', alistGet?_cons_neg hp']
        exact ih

theorem alistGet?_alistSet_self (l : List (Str × α)) (k : Str) (v : α) :
    alistGet? (alistSet l k v) k = some v := by
  unfold alistSet
  by_cases h : hasKey l k
  · rw [if_pos h, alistGet?_alistUpdate_self]
    obtain ⟨w, hw⟩ := get?_isSome_of_hasKey h
    simp [hw]
  · rw [if_neg h, alistGet?_append_right (by simpa using h)]
    exact alistGet?_cons_pos (by simp)

theorem alistGet?_alistSet_other (l : List (Str × α)) {k k' : Str}
    (h : k' ≠ k) (v : α) :
    alistGet? (alistSet l k v) k' = alistGet? l k' := by
  unfold alistSet
  by_cases hk : hasKey l k
  · rw [if_pos hk, alistGet?_alistUpdate_other _ h]
  · rw [if_neg hk]
    by_cases hk' : hasKey l k'
    · exact alistGet?_append_left hk'
    · have hl : alistGet? l k' = none := alistGet?_eq_none.mpr (by simpa using hk')
      rw [alistGet?_append_right (by simpa using hk'), hl]
      have hne : ¬(((k, v).1 == k') = true) := by
        simp only [beq_iff_eq]
        exact fun hh => h hh.symm
      rw [alistGet?_cons_neg hne]
      rfl

theorem countKey_alistSet_of_hasKey (l : List (Str × α)) {k : Str} (k' : Str)
    (v : α) (h : hasKey l k = true) :
    countKey (alistSet l k v) k' = countKey l k' := by
  unfold alistSet
  rw [if_pos h, countKey_alistUpdate]

theorem countKey_alistSet_of_not (l : List (Str × α)) {k : Str} (k' : Str)
    (v : α) (h : hasKey l k = false) :
    countKey (alistSet l k v) k' = countKey l k' + if k = k' then 1 else 0 := by
  unfold alistSet
  rw [if_neg (by simp [h]), countKey_append, countKey_single]

theorem keys_alistSet_of_not (l : List (Str × α)) {k : Str} (v : α)
    (h : hasKey l k = false) :
    (alistSet l k v).map Prod.fst = l.map Prod.fst ++ [k] := by
  unfold alistSet
  rw [if_neg (by simp [h])]
  simp

theorem mem_alistSet {l : List (Str × α)} {k : Str} {v : α} {p : Str × α}
    (h : p ∈ alistSet l k v) : p ∈ l ∨ p.2 = v := by
  unfold alistSet at h
  by_cases hk : hasKey l k
  · rw [if_pos hk] at h
    obtain ⟨q, hq, hpq⟩ := List.mem_map.mp h
    by_cases hq1 : q.1 == k
    · right; rw [if_pos hq1] at hpq; rw [← hpq]
    · left; rw [if_neg hq1] at hpq; rw [← hpq]; exact hq
  · rw [if_neg hk] at h
    rcases List.mem_append.mp h with h | h
    · left; exact h
    · right
      simp only [List.mem_singleton] at h
      rw [h]

end AListLemmas
/-- The test result of the first run (in input order) that contains `tid`. -/
def firstResult (runs : List VerificationRun) (tid : Str) : Option TestResult :=
  match runs with
  | [] => none
  | v :: rest =>
    match alistGet? v.tests tid with
    | some r => some r
    | none => firstResult rest tid

section AggLemmas

theorem mem_keys_of_get? {α : Type} {l : List (Str × α)} {k : Str} {v : α}
    (h : alistGet? l k = some v) : k ∈ l.map Prod.fst := by
  induction l with
  | nil => cases h
  | cons p t ih =>
    by_cases hp : p.1 == k
    · rw [beq_iff_eq] at hp
      rw [List.map_cons, ← hp]
      exact List.mem_cons_self _ _
    · rw [alistGet?_cons_neg hp] at h
      simp [ih h]

theorem hasKey_false_of_not_mem {α : Type} {l : List (Str × α)} {k : Str}
    (h : k ∉ l.map Prod.fst) : hasKey l k = false := by
  cases hk : hasKey l k
  · rfl
  · exfalso
    obtain ⟨v, hv⟩ := get?_isSome_of_hasKey hk
    exact h (mem_keys_of_get? hv)

theorem firstResult_append_of_none {rs : List VerificationRun} {tid : Str}
    (v : VerificationRun) (h : firstResult rs tid = none) :
    firstResult (rs ++ [v]) tid = alistGet? v.tests tid := by
  induction rs with
  | nil =>
    cases ho : alistGet? v.tests tid <;> simp [firstResult, ho]
  | cons w ws ih =>
    cases ho : alistGet? w.tests tid with
    | some r => simp [firstResult, ho] at h
    | none =>
      simp only [firstResult, ho] at h ⊢
      exact ih h

theorem firstResult_append_of_some {rs : List VerificationRun} {tid : Str}
    {r : TestResult} (v : VerificationRun) (h : firstResult rs tid = some r) :
    firstResult (rs ++ [v]) tid = some r := by
  induction rs with
  | nil => cases h
  | cons w ws ih =>
    cases ho : alistGet? w.tests tid with
    | some r' =>
      simp only [firstResult, ho] at h ⊢
      exact h
    | none =>
      simp only [firstResult, ho] at h ⊢
      exact ih h

theorem firstResult_none {rs : List VerificationRun} {tid : Str}
    (h : firstResult rs tid = none) :
    ∀ w ∈ rs, hasKey w.tests tid = false := by
  induction rs with
  | nil => intro w hw; cases hw
  | cons w ws ih =>
    intro x hx
    cases ho : alistGet? w.tests tid with
    | some r => simp [firstResult, ho] at h
    | none =>
      simp only [firstResult, ho] at h
      rcases List.mem_cons.mp hx with hx | hx
      · rw [hx]
        exact alistGet?_eq_none.mp ho
      · exact ih h x hx

theorem firstResult_some_of_hasKey {rs : List VerificationRun} {tid : Str}
    (h : ∃ v ∈ rs, hasKey v.tests tid = true) :
    ∃ res, firstResult rs tid = some res := by
  induction rs with
  | nil => obtain ⟨v, hv, _⟩ := h; cases hv
  | cons w ws ih =>
    cases ho : alistGet? w.tests tid with
    | some r => exact ⟨r, by simp [firstResult, ho]⟩
    | none =>
      obtain ⟨v, hv, hkv⟩ := h
      rcases List.mem_cons.mp hv with hv | hv
      · rw [← hv] at ho
        rw [alistGet?_eq_none.mp ho] at hkv
        cases hkv
      · obtain ⟨res, hres⟩ := ih ⟨v, hv, hkv⟩
        exact ⟨res, by simp [firstResult, ho, hres]⟩

theorem hasKey_append {α : Type} (l m : List (Str × α)) (k : Str) :
    hasKey (l ++ m) k = (hasKey l k || hasKey m k) := List.any_append

theorem alistGet?_single_ne {α : Type} {k' k : Str} (h : k' ≠ k) (v : α) :
    alistGet? [(k', v)] k = none := by
  have hne : ¬(((k', v) : Str × α).1 == k) = true := by simpa using h
  rw [alistGet?_cons_neg hne]
  rfl

theorem hasKey_single_ne {α : Type} {k' k : Str} (h : k' ≠ k) (v : α) :
    hasKey [(k', v)] k = false := by
  simp [hasKey, beq_eq_false_iff_ne.mpr h]

theorem processTest_get_other (u : Str) (tests : List (Str × TestEntry))
    (tid : Str) (res : TestResult) {k : Str} (h : k ≠ tid) :
    alistGet? (processTest u tests tid res) k = alistGet? tests k := by
  simp only [processTest]
  rw [alistGet?_alistUpdate_other _ h]
  by_cases hk : hasKey tests tid
  · rw [if_pos hk]
  · rw [if_neg hk]
    by_cases hk' : hasKey tests k
    · exact alistGet?_append_left hk'
    · have hl : alistGet? tests k = none := alistGet?_eq_none.mpr (by simpa using hk')
      rw [alistGet?_append_right (by simpa using hk'), hl,
        alistGet?_single_ne (fun hh => h hh.symm)]

theorem processTest_hasKey_other (u : Str) (tests : List (Str × TestEntry))
    (tid : Str) (res : TestResult) {k : Str} (h : k ≠ tid) :
    hasKey (processTest u tests tid res) k = hasKey tests k := by
  simp only [processTest]
  rw [hasKey_alistUpdate]
  by_cases hk : hasKey tests tid
  · rw [if_pos hk]
  · rw [if_neg hk, hasKey_append,
      hasKey_single_ne (fun hh => h hh.symm), Bool.or_false]

theorem processTest_count (u : Str) (tests : List (Str × TestEntry))
    (tid : Str) (res : TestResult) (k : Str) :
    countKey (processTest u tests tid res) k =
      countKey tests k +
        (if tid = k ∧ hasKey tests tid = false then 1 else 0) := by
  simp only [processTest]
  rw [countKey_alistUpdate]
  by_cases hk : hasKey tests tid
  · rw [if_pos hk]
    simp [hk]
  · rw [if_neg hk, countKey_append, countKey_single]
    by_cases ht : tid = k
    · subst ht
      simp [hk]
    · simp [ht]

theorem processTest_get_self_old (u : Str) (tests : List (Str × TestEntry))
    (tid : Str) (res : TestResult) {e : TestEntry}
    (he : alistGet? tests tid = some e) :
    alistGet? (processTest u tests tid res) tid =
      some { e with
        by_verification := alistSet e.by_verification u (mkRunRecord res) } := by
  simp only [processTest]
  rw [if_pos (hasKey_of_get? he), alistGet?_alistUpdate_self, he]
  rfl

theorem processTest_get_self_new (u : Str) (tests : List (Str × TestEntry))
    (tid : Str) (res : TestResult) (he : alistGet? tests tid = none) :
    alistGet? (processTest u tests tid res) tid =
      some { tags := sortTags res.tags, name := res.name,
             by_verification := [(u, mkRunRecord res)] } := by
  have hk : hasKey tests tid = false := alistGet?_eq_none.mp he
  simp only [processTest]
  rw [if_neg (by simp [hk]), alistGet?_alistUpdate_self,
    alistGet?_append_right hk, alistGet?_cons_pos (by simp)]
  rfl

end AggLemmas

section FoldLemmas

theorem foldTests_get_of_not (u : Str) (ps : List (Str × TestResult)) {tid : Str} :
    ∀ tests, hasKey ps tid = false →
      alistGet? (ps.foldl (fun ts p => processTest u ts p.1 p.2) tests) tid =
        alistGet? tests tid := by
  induction ps with
  | nil => intro tests _; rfl
  | cons q qs ih =>
    intro tests h
    rw [hasKey_cons] at h
    have h1 : (q.1 == tid) = false := by
      cases hq : q.1 == tid
      · rfl
      · rw [hq] at h; simp at h
    have h2 : hasKey qs tid = false := by
      cases hq : hasKey qs tid
      · rfl
      · rw [hq] at h; simp at h
    rw [List.foldl_cons, ih _ h2,
      processTest_get_other u tests q.1 q.2
        (fun hh => by rw [beq_eq_false_iff_ne] at h1; exact h1 hh.symm)]

theorem foldTests_count_of_not (u : Str) (ps : List (Str × TestResult)) {tid : Str} :
    ∀ tests, hasKey ps tid = false →
      countKey (ps.foldl (fun ts p => processTest u ts p.1 p.2) tests) tid =
        countKey tests tid := by
  induction ps with
  | nil => intro tests _; rfl
  | cons q qs ih =>
    intro tests h
    rw [hasKey_cons] at h
    have h1 : (q.1 == tid) = false := by
      cases hq : q.1 == tid
      · rfl
      · rw [hq] at h; simp at h
    have h2 : hasKey qs tid = false := by
      cases hq : hasKey qs tid
      · rfl
      · rw [hq] at h; simp at h
    rw [List.foldl_cons, ih _ h2, processTest_count]
    have : ¬(q.1 = tid) := by rw [beq_eq_false_iff_ne] at h1; exact h1
    simp [this]

theorem foldTests_hasKey_of_not (u : Str) (ps : List (Str × TestResult)) {tid : Str} :
    ∀ tests, hasKey ps tid = false →
      hasKey (ps.foldl (fun ts p => processTest u ts p.1 p.2) tests) tid =
        hasKey tests tid := by
  induction ps with
  | nil => intro tests _; rfl
  | cons q qs ih =>
    intro tests h
    rw [hasKey_cons] at h
    have h1 : (q.1 == tid) = false := by
      cases hq : q.1 == tid
      · rfl
      · rw [hq] at h; simp at h
    have h2 : hasKey qs tid = false := by
      cases hq : hasKey qs tid
      · rfl
      · rw [hq] at h; simp at h
    rw [List.foldl_cons, ih _ h2,
      processTest_hasKey_other u tests q.1 q.2
        (fun hh => by rw [beq_eq_false_iff_ne] at h1; exact h1 hh.symm)]

theorem foldTests_count (u : Str) (ps : List (Str × TestResult)) {tid : Str} :
    ∀ tests, (ps.map Prod.fst).Nodup →
      countKey (ps.foldl (fun ts p => processTest u ts p.1 p.2) tests) tid =
        countKey tests tid +
          (if hasKey ps tid = true ∧ hasKey tests tid = false then 1 else 0) := by
  induction ps with
  | nil =>
    intro tests _
    have hnone : hasKey ([] : List (Str × TestResult)) tid = false := rfl
    rw [hnone]
    simp
  | cons q qs ih =>
    intro tests hnd
    rw [List.map_cons] at hnd
    rw [List.foldl_cons]
    by_cases hq : q.1 == tid
    · rw [beq_iff_eq] at hq
      subst hq
      have hmem : q.1 ∉ qs.map Prod.fst := (List.nodup_cons.mp hnd).1
      have hqs : hasKey qs q.1 = false := hasKey_false_of_not_mem hmem
      rw [foldTests_count_of_not u qs _ hqs, processTest_count]
      rw [hasKey_cons]
      by_cases hkt : hasKey tests q.1
      · simp [hkt]
      · simp [hkt]
    · have h1 : (q.1 == tid) = false := by simpa using hq
      have hne : ¬(q.1 = tid) := by rw [beq_eq_false_iff_ne] at h1; exact h1
      have htail : (qs.map Prod.fst).Nodup := (List.nodup_cons.mp hnd).2
      rw [ih _ htail, processTest_count,
        processTest_hasKey_other u tests q.1 q.2 (fun hh => hne hh.symm)]
      rw [hasKey_cons]
      simp [hne, h1]

theorem foldTests_get_of_mem_old (u : Str) (ps : List (Str × TestResult))
    {tid : Str} {res : TestResult} :
    ∀ tests (e : TestEntry), (ps.map Prod.fst).Nodup →
      alistGet? ps tid = some res → alistGet? tests tid = some e →
      alistGet? (ps.foldl (fun ts p => processTest u ts p.1 p.2) tests) tid =
        some { e with
          by_verification := alistSet e.by_verification u (mkRunRecord res) } := by
  induction ps with
  | nil => intro tests e _ hres _; cases hres
  | cons q qs ih =>
    intro tests e hnd hres he
    rw [List.foldl_cons]
    rw [List.map_cons] at hnd
    by_cases hq : q.1 == tid
    · rw [beq_iff_eq] at hq
      subst hq
      rw [alistGet?_cons_pos (by simp)] at hres
      injection hres with hres
      have hmem : q.1 ∉ qs.map Prod.fst := (List.nodup_cons.mp hnd).1
      have hqs : hasKey qs q.1 = false := hasKey_false_of_not_mem hmem
      rw [foldTests_get_of_not u qs _ hqs,
        processTest_get_self_old u tests q.1 q.2 he, hres]
    · have h1 : (q.1 == tid) = false := by simpa using hq
      have hne : ¬(q.1 = tid) := by rw [beq_eq_false_iff_ne] at h1; exact h1
      have htail : (qs.map Prod.fst).Nodup := (List.nodup_cons.mp hnd).2
      rw [alistGet?_cons_neg hq] at hres
      exact ih _ e htail hres
        (by rw [processTest_get_other u tests q.1 q.2 (fun hh => hne hh.symm)]
            exact he)

theorem foldTests_get_of_mem_new (u : Str) (ps : List (Str × TestResult))
    {tid : Str} {res : TestResult} :
    ∀ tests, (ps.map Prod.fst).Nodup →
      alistGet? ps tid = some res → alistGet? tests tid = none →
      alistGet? (ps.foldl (fun ts p => processTest u ts p.1 p.2) tests) tid =
        some { tags := sortTags res.tags, name := res.name,
               by_verification := [(u, mkRunRecord res)] } := by
  induction ps with
  | nil => intro tests _ hres _; cases hres
  | cons q qs ih =>
    intro tests hnd hres he
    rw [List.foldl_cons]
    rw [List.map_cons] at hnd
    by_cases hq : q.1 == tid
    · rw [beq_iff_eq] at hq
      subst hq
      rw [alistGet?_cons_pos (by simp)] at hres
      injection hres with hres
      have hmem : q.1 ∉ qs.map Prod.fst := (List.nodup_cons.mp hnd).1
      have hqs : hasKey qs q.1 = false := hasKey_false_of_not_mem hmem
      rw [foldTests_get_of_not u qs _ hqs,
        processTest_get_self_new u tests q.1 q.2 he, hres]
    · have h1 : (q.1 == tid) = false := by simpa using hq
      have hne : ¬(q.1 = tid) := by rw [beq_eq_false_iff_ne] at h1; exact h1
      have htail : (qs.map Prod.fst).Nodup := (List.nodup_cons.mp hnd).2
      rw [alistGet?_cons_neg hq] at hres
      exact ih _ htail hres
        (by rw [processTest_get_other u tests q.1 q.2 (fun hh => hne hh.symm)]
            exact he)

end FoldLemmas

/-- The `tests` accumulation of `_generate` in isolation. -/
def aggTests (runs : List VerificationRun) : List (Str × TestEntry) :=
  runs.foldl addRun []

theorem jsonGenerateRaw_tests (runs : List VerificationRun) :
    (jsonGenerateRaw runs).tests = aggTests runs := by
  suffices h : ∀ init : Report,
      (runs.foldl
        (fun rep v =>
          { verifications := alistSet rep.verifications v.uuid (mkSummary v)
            tests := addRun rep.tests v }) init).tests =
        runs.foldl addRun init.tests by
    exact h { verifications := [], tests := [] }
  induction runs with
  | nil => intro init; rfl
  | cons v vs ih =>
    intro init
    rw [List.foldl_cons, List.foldl_cons]
    exact ih _

theorem aggTests_snoc (runs : List VerificationRun) (v : VerificationRun) :
    aggTests (runs ++ [v]) = addRun (aggTests runs) v := by
  unfold aggTests
  rw [List.foldl_append]
  rfl

/--
Characterization of the aggregated `tests` mapping: a test identifier
absent from every run is absent from `tests`; a test identifier first
contributed by some run appears exactly once, carries that first run's
(sorted) tags and name, and its `by_verification` keys are exactly the
uuids of the runs containing the test, in input order.
-/
theorem aggTests_char (runs : List VerificationRun) :
    (runs.map VerificationRun.uuid).Nodup →
    (∀ v ∈ runs, (v.tests.map Prod.fst).Nodup) →
    ∀ tid : Str,
      (firstResult runs tid = none →
        alistGet? (aggTests runs) tid = none ∧ countKey (aggTests runs) tid = 0) ∧
      (∀ res, firstResult runs tid = some res →
        countKey (aggTests runs) tid = 1 ∧
        ∃ e, alistGet? (aggTests runs) tid = some e ∧
          e.tags = sortTags res.tags ∧ e.name = res.name ∧
          e.by_verification.map Prod.fst =
            (runs.filter (fun v => hasKey v.tests tid)).map VerificationRun.uuid) := by
  induction runs using List.reverseRecOn with
  | nil =>
    intro _ _ tid
    exact ⟨fun _ => ⟨rfl, rfl⟩, fun res hres => by cases hres⟩
  | append_singleton rs v ih =>
    intro h1 h2 tid
    have h1' : (rs.map VerificationRun.uuid).Nodup := by
      rw [List.map_append] at h1
      exact h1.of_append_left
    have h2' : ∀ w ∈ rs, (w.tests.map Prod.fst).Nodup :=
      fun w hw => h2 w (List.mem_append_left _ hw)
    have hvnodup : (v.tests.map Prod.fst).Nodup :=
      h2 v (List.mem_append.mpr (Or.inr (List.mem_singleton_self v)))
    have hfresh : v.uuid ∉ rs.map VerificationRun.uuid := by
      rw [List.map_append] at h1
      have hdis := (List.nodup_append.mp h1).2.2
      exact fun hmem => hdis hmem (List.mem_singleton_self _)
    cases hfr : firstResult rs tid with
    | none =>
      obtain ⟨hget, hcount⟩ := (ih h1' h2' tid).1 hfr
      have hall : ∀ w ∈ rs, hasKey w.tests tid = false := firstResult_none hfr
      have hfilter : rs.filter (fun w => hasKey w.tests tid) = [] :=
        List.filter_eq_nil_iff.mpr (fun w hw => by rw [hall w hw]; exact Bool.false_ne_true)
      constructor
      · intro hfr2
        rw [firstResult_append_of_none v hfr] at hfr2
        have hkv : hasKey v.tests tid = false := alistGet?_eq_none.mp hfr2
        rw [aggTests_snoc]
        simp only [addRun]
        exact ⟨by rw [foldTests_get_of_not _ _ _ hkv]; exact hget,
               by rw [foldTests_count_of_not _ _ _ hkv]; exact hcount⟩
      · intro res hfr2
        rw [firstResult_append_of_none v hfr] at hfr2
        have hkv : hasKey v.tests tid = true := hasKey_of_get? hfr2
        rw [aggTests_snoc]
        simp only [addRun]
        have hnk : hasKey (aggTests rs) tid = false := alistGet?_eq_none.mp hget
        constructor
        · rw [foldTests_count _ _ _ hvnodup, hcount]
          simp [hkv, hnk]
        · refine ⟨_, foldTests_get_of_mem_new _ _ _ hvnodup hfr2 hget, rfl, rfl, ?_⟩
          rw [List.filter_append, hfilter, List.nil_append]
          simp [hkv]
    | some res0 =>
      obtain ⟨hcount1, e, hget, htags, hname, hkeys⟩ := (ih h1' h2' tid).2 res0 hfr
      constructor
      · intro hfr2
        rw [firstResult_append_of_some v hfr] at hfr2
        cases hfr2
      · intro res hfr2
        rw [firstResult_append_of_some v hfr] at hfr2
        injection hfr2 with hres0
        subst hres0
        rw [aggTests_snoc]
        simp only [addRun]
        by_cases hkv : hasKey v.tests tid
        · obtain ⟨resv, hresv⟩ := get?_isSome_of_hasKey hkv
          constructor
          · rw [foldTests_count _ _ _ hvnodup, hcount1]
            simp [hasKey_of_get? hget]
          · refine ⟨_, foldTests_get_of_mem_old _ _ _ e hvnodup hresv hget,
              htags, hname, ?_⟩
            have hbfresh : hasKey e.by_verification v.uuid = false := by
              apply hasKey_false_of_not_mem
              rw [hkeys]
              intro hmem
              apply hfresh
              obtain ⟨w, hw, hww⟩ := List.mem_map.mp hmem
              exact List.mem_map.mpr ⟨w, (List.mem_filter.mp hw).1, hww⟩
            rw [keys_alistSet_of_not _ _ hbfresh, hkeys,
              List.filter_append, List.map_append]
            simp [hkv]
        · have hkvf : hasKey v.tests tid = false := by simpa using hkv
          constructor
          · rw [foldTests_count_of_not _ _ _ hkvf]
            exact hcount1
          · refine ⟨e, by rw [foldTests_get_of_not _ _ _ hkvf]; exact hget,
              htags, hname, ?_⟩
            rw [hkeys, List.filter_append]
            simp [hkvf]

theorem firstResult_some_mem {rs : List VerificationRun} {tid : Str}
    {res : TestResult} (h : firstResult rs tid = some res) :
    ∃ v ∈ rs, hasKey v.tests tid = true := by
  induction rs with
  | nil => cases h
  | cons w ws ih =>
    cases ho : alistGet? w.tests tid with
    | some r => exact ⟨w, List.mem_cons_self _ _, hasKey_of_get? ho⟩
    | none =>
      simp only [firstResult, ho] at h
      obtain ⟨v, hv, hkv⟩ := ih h
      exact ⟨v, List.mem_cons_of_mem _ hv, hkv⟩

/--
C2: for every sequence of input runs (with distinct run uuids and
per-run test maps with distinct keys, as Python dicts guarantee), every
test identifier occurring in some run's test map occurs exactly once in
the aggregated `tests` mapping (and an identifier occurring in no run is
absent); the entry's tags and name come from the first run (in input
order) containing the test, and its `by_verification` has exactly one
record per run containing the test, keyed by that run's uuid, in input
order.
-/
theorem claim_C2 (runs : List VerificationRun)
    (h1 : (runs.map VerificationRun.uuid).Nodup)
    (h2 : ∀ v ∈ runs, (v.tests.map Prod.fst).Nodup) (tid : Str) :
    ((∃ v ∈ runs, hasKey v.tests tid = true) →
      countKey (jsonGenerateRaw runs).tests tid = 1) ∧
    ((¬ ∃ v ∈ runs, hasKey v.tests tid = true) →
      countKey (jsonGenerateRaw runs).tests tid = 0) ∧
    (∀ res, firstResult runs tid = some res →
      ∃ e, alistGet? (jsonGenerateRaw runs).tests tid = some e ∧
        e.tags = sortTags res.tags ∧ e.name = res.name ∧
        e.by_verification.map Prod.fst =
          (runs.filter (fun v => hasKey v.tests tid)).map VerificationRun.uuid) := by
  rw [jsonGenerateRaw_tests]
  have hc := aggTests_char runs h1 h2 tid
  refine ⟨?_, ?_, ?_⟩
  · intro hex
    obtain ⟨res, hres⟩ := firstResult_some_of_hasKey hex
    exact (hc.2 res hres).1
  · intro hnex
    cases hfr : firstResult runs tid with
    | none => exact (hc.1 hfr).2
    | some res => exact absurd (firstResult_some_mem hfr) hnex
  · intro res hres
    exact (hc.2 res hres).2

theorem claim_C2_witness :
    countKey (jsonGenerateRaw demoRunsC1).tests "t".toList = 1 ∧
    (∃ e, alistGet? (jsonGenerateRaw demoRunsC1).tests "t".toList = some e ∧
      e.tags = sortTags (mkRes (mkRat 1 2000)).tags ∧
      e.name = (mkRes (mkRat 1 2000)).name ∧
      e.by_verification.map Prod.fst =
        (demoRunsC1.filter
          (fun v => hasKey v.tests "t".toList)).map VerificationRun.uuid) := by
  have h := claim_C2 demoRunsC1 (by decide) (by decide) "t".toList
  exact ⟨h.1 (by decide), h.2.2 (mkRes (mkRat 1 2000)) (by decide)⟩

/--
C3: the aggregator's tag ordering puts every tag starting with `"id-"`
before every other tag, keeps the relative order within each group (each
group equals the corresponding subsequence of the input), is a
permutation of the input, and on `["foo", "id-2", "bar", "id-1"]`
produces `["id-2", "id-1", "foo", "bar"]`.
-/
theorem claim_C3 (tags : List Str) :
    (sortTags tags).Perm tags ∧
    (∃ ids others,
      sortTags tags = ids ++ others ∧
      (∀ t ∈ ids, startsWithId t = true) ∧
      (∀ t ∈ others, startsWithId t = false) ∧
      ids = tags.filter startsWithId ∧
      others = tags.filter (fun t => !startsWithId t)) ∧
    sortTags ["foo".toList, "id-2".toList, "bar".toList, "id-1".toList] =
      ["id-2".toList, "id-1".toList, "foo".toList, "bar".toList] := by
  refine ⟨List.filter_append_perm _ _, ⟨_, _, rfl, ?_, ?_, rfl, rfl⟩, by decide⟩
  · intro t ht
    exact (List.mem_filter.mp ht).2
  · intro t ht
    have := (List.mem_filter.mp ht).2
    cases h : startsWithId t
    · rfl
    · rw [h] at this; cases this

/--
C4 counterexample: with reason `"flaky"` and the whitespace-only
traceback `" "` the stripped traceback is empty, so under the claim no
separator would be added and the details would be `"flaky"`; the code
tests the raw traceback for the separator, producing `"flaky\n\n"`.
-/
theorem claim_C4_counterexample :
    detailsOf "flaky".toList " ".toList = some "flaky\n\n".toList ∧
    detailsOf "flaky".toList " ".toList ≠ some "flaky".toList := by
  exact ⟨by decide, by decide⟩

/--
C4 (amended): the details text is the (possibly rewritten) reason,
a blank-line separator exactly when both the reason and the RAW
traceback are non-empty (the code checks the traceback before
stripping), and the stripped traceback; the field is omitted exactly
when the combined text is empty.  The claim's example still holds:
reason `"flaky"` with traceback `"Trace\nline2"` yields
`"flaky\n\nTrace\nline2"` (see the witness).
-/
theorem claim_C4 (reason tb : Str) :
    (rewriteReason reason ≠ [] → tb ≠ [] →
      detailsOf reason tb =
        some (rewriteReason reason ++ "\n\n".toList ++ pyStrip tb)) ∧
    (rewriteReason reason = [] ∨ tb = [] →
      detailsOf reason tb =
        (if rewriteReason reason ++ pyStrip tb = [] then none
         else some (rewriteReason reason ++ pyStrip tb))) := by
  constructor
  · intro h1 h2
    simp only [detailsOf]
    rw [if_pos (show rewriteReason reason ≠ [] ∧ tb ≠ [] from ⟨h1, h2⟩)]
    rw [if_neg (show ¬(rewriteReason reason ++ "\n\n".toList ++ pyStrip tb = []) from by
      simp [List.append_eq_nil, h1])]
  · intro h
    simp only [detailsOf]
    have hsep : ¬(rewriteReason reason ≠ [] ∧ tb ≠ []) := by
      rcases h with h | h <;> simp [h]
    rw [if_neg hsep]
    simp

theorem claim_C4_witness :
    detailsOf "flaky".toList "Trace\nline2".toList =
      some "flaky\n\nTrace\nline2".toList := by
  have h := (claim_C4 "flaky".toList "Trace\nline2".toList).1 (by decide) (by decide)
  exact h.trans (by decide)

theorem deliver_empty (dest : Option Str) (raw : Str)
    (h : dest = none ∨ dest = some []) :
    deliver dest raw = { print := some raw, files := none, openDest := none } := by
  rcases h with h | h <;> rw [h] <;> simp [deliver]

theorem deliver_full (d : Str) (raw : Str) (h : d ≠ []) :
    deliver (some d) raw =
      { print := none, files := some (d, raw), openDest := some d } := by
  simp [deliver, h]

/--
C6 counterexample: `generate()` called with the empty string as the
output destination (a destination, but falsy in Python) returns the
`print` shape, not the `files`/`open` shape the claim requires for
every given destination.
-/
theorem claim_C6_counterexample :
    (jsonGenerate (fun _ => "r".toList)
      { verifications := [], output_destination := some [] }).files = none ∧
    (jsonGenerate (fun _ => "r".toList)
      { verifications := [], output_destination := some [] }).print =
        some "r".toList := ⟨rfl, rfl⟩

/--
C6 (amended): for every reporter (JSON, and HTML with either value of
`INCLUDE_LIBS`, covering `html` and `html-static`) and every input:
with no destination or an empty-string destination (both falsy),
`generate` returns only the `print` key; with a non-empty destination it
returns the `files` mapping exactly that destination to the report and
`open` equal to that destination, with no `print` key.  The two shapes
never occur simultaneously.
-/
theorem claim_C6 (dumps : Report → Str) (render : Str → Bool → Str)
    (hdumps : HtmlReport → Str) (frepr : ℚ → Str) (il : Bool)
    (runs : List VerificationRun) :
    (∀ dest, (dest = none ∨ dest = some []) →
      jsonGenerate dumps { verifications := runs, output_destination := dest } =
        { print := some (dumps (jsonGenerateRaw runs)), files := none,
          openDest := none } ∧
      htmlGenerate render hdumps frepr il
          { verifications := runs, output_destination := dest } =
        { print := some (render (hdumps (htmlGenerateReport frepr runs)) il),
          files := none, openDest := none }) ∧
    (∀ d, d ≠ [] →
      jsonGenerate dumps { verifications := runs, output_destination := some d } =
        { print := none, files := some (d, dumps (jsonGenerateRaw runs)),
          openDest := some d } ∧
      htmlGenerate render hdumps frepr il
          { verifications := runs, output_destination := some d } =
        { print := none,
          files := some (d, render (hdumps (htmlGenerateReport frepr runs)) il),
          openDest := some d }) := by
  constructor
  · intro dest h
    exact ⟨by unfold jsonGenerate; rw [deliver_empty _ _ h],
           by unfold htmlGenerate; rw [deliver_empty _ _ h]⟩
  · intro d h
    exact ⟨by unfold jsonGenerate; exact deliver_full d _ h,
           by unfold htmlGenerate; exact deliver_full d _ h⟩

theorem claim_C6_witness :
    jsonGenerate (fun _ => "r".toList)
      { verifications := [], output_destination := some "x".toList } =
      { print := none, files := some ("x".toList, "r".toList),
        openDest := some "x".toList } :=
  ((claim_C6 (fun _ => "r".toList) (fun s _ => s) (fun _ => "h".toList)
    sampleRepr false []).2 "x".toList (by decide)).1

/-- A reporter invocation as a state transformer: the returned second
component is the input data as the call leaves it.  The Python methods
only read `self.verifications` and `self.output_destination`; every
mutation in `generate` targets dictionaries freshly built by
`_generate`, so the input is returned unchanged. -/
def jsonGenerateCall (dumps : Report → Str) (inp : ReporterInput) :
    GenOutput × ReporterInput :=
  (jsonGenerate dumps inp, inp)

/-- `HTMLReporter.generate` (both `INCLUDE_LIBS` variants) as a state
transformer; see `jsonGenerateCall`. -/
def htmlGenerateCall (render : Str → Bool → Str) (dumps : HtmlReport → Str)
    (frepr : ℚ → Str) (il : Bool) (inp : ReporterInput) :
    GenOutput × ReporterInput :=
  (htmlGenerate render dumps frepr il inp, inp)

/--
C9: for every reporter (JSON, HTML, HTML-static via `il`) with the
serializer, template renderer and numeric formatting held fixed, two
consecutive invocations on the same input return identical output, and
an invocation leaves the input data unchanged: report generation is
deterministic with no shared mutable state across invocations.
-/
theorem claim_C9 (dumps : Report → Str) (render : Str → Bool → Str)
    (hdumps : HtmlReport → Str) (frepr : ℚ → Str) (il : Bool)
    (inp : ReporterInput) :
    (jsonGenerateCall dumps ((jsonGenerateCall dumps inp).2)).1 =
        (jsonGenerateCall dumps inp).1 ∧
    (jsonGenerateCall dumps inp).2 = inp ∧
    (htmlGenerateCall render hdumps frepr il
        ((htmlGenerateCall render hdumps frepr il inp).2)).1 =
      (htmlGenerateCall render hdumps frepr il inp).1 ∧
    (htmlGenerateCall render hdumps frepr il inp).2 = inp :=
  ⟨rfl, rfl, rfl, rfl⟩

section RegexLemmas

theorem stripPre?_append (p s : Str) : stripPre? (p ++ s) p = some s := by
  induction p with
  | nil =>
    rw [List.nil_append]
    cases s <;> rfl
  | cons c ps ih => simp [stripPre?, ih]

theorem takeWhile_digit_append (d : Str) (y : Char) (ys : Str)
    (hd : ∀ x ∈ d, x.isDigit = true) (hy : y.isDigit = false) :
    (d ++ y :: ys).takeWhile Char.isDigit = d ∧
    (d ++ y :: ys).dropWhile Char.isDigit = y :: ys := by
  induction d with
  | nil =>
    rw [List.nil_append]
    exact ⟨by rw [List.takeWhile_cons, if_neg (by simp [hy])],
           by rw [List.dropWhile_cons, if_neg (by simp [hy])]⟩
  | cons x xs ih =>
    have hx : x.isDigit = true := hd x (List.mem_cons_self _ _)
    obtain ⟨h1, h2⟩ := ih (fun z hz => hd z (List.mem_cons_of_mem _ hz))
    rw [List.cons_append]
    exact ⟨by rw [List.takeWhile_cons, if_pos (by simp [hx]), h1],
           by rw [List.dropWhile_cons, if_pos (by simp [hx]), h2]⟩

/--
`SKIP_RE.match` on any reason of the shape
`"Skipped until Bug: " + digits + " is resolved" + <any char but newline> + anything`
succeeds and captures the digit run: the pattern is anchored at the
start only, arbitrary trailing text is allowed, and the final `.` of the
pattern matches any single character except a newline.
-/
theorem skipMatch_canonical (d : Str) (c : Char) (t : Str) (hd0 : d ≠ [])
    (hd : ∀ x ∈ d, x.isDigit = true) (hc : ¬c = '\n') :
    skipMatch ("Skipped until Bug: ".toList ++
      (d ++ (" is resolved".toList ++ c :: t))) = some d := by
  have hsp : "Skipped until Bug: ".toList = skipPhrase ++ [' '] := by decide
  rw [hsp, List.append_assoc, List.singleton_append]
  unfold skipMatch
  rw [stripPre?_append]
  show skipTail (' ' :: (d ++ (" is resolved".toList ++ c :: t))) = some d
  have htake : (d ++ (" is resolved".toList ++ c :: t)).takeWhile Char.isDigit = d :=
    (takeWhile_digit_append d ' ' ("is resolved".toList ++ c :: t) hd (by decide)).1
  have hdrop : (d ++ (" is resolved".toList ++ c :: t)).dropWhile Char.isDigit =
      " is resolved".toList ++ c :: t :=
    (takeWhile_digit_append d ' ' ("is resolved".toList ++ c :: t) hd (by decide)).2
  unfold skipTail
  simp only [List.head?_cons, List.tail_cons]
  rw [if_pos trivial]
  simp only [htake, hdrop]
  rw [if_neg hd0]
  rw [show " is resolved".toList ++ c :: t = resolvedPhrase ++ (c :: t) from rfl,
    stripPre?_append]
  show (if c = '\n' then none else some d) = some d
  rw [if_neg hc]

theorem pyReplaceAll_nil (pat rep : Str) : pyReplaceAll [] pat rep = [] := rfl

theorem pyReplaceAll_append_no_digit (pre s d rep : Str)
    (hpre : ∀ x ∈ pre, x.isDigit = false)
    (hd0 : d ≠ []) (hd : ∀ x ∈ d, x.isDigit = true) :
    pyReplaceAll (pre ++ s) d rep = pre ++ pyReplaceAll s d rep := by
  induction pre with
  | nil => rfl
  | cons x xs ih =>
    have hx : x.isDigit = false := hpre x (List.mem_cons_self _ _)
    have hnp : ¬(d ≠ [] ∧ d.isPrefixOf (x :: (xs ++ s)) = true) := by
      rintro ⟨_, hp⟩
      cases d with
      | nil => exact hd0 rfl
      | cons d0 ds =>
        simp only [List.isPrefixOf, Bool.and_eq_true, beq_iff_eq] at hp
        have hd0dig : d0.isDigit = true := hd d0 (List.mem_cons_self _ _)
        rw [hp.1, hx] at hd0dig
        cases hd0dig
    rw [List.cons_append, pyReplaceAll_skip _ _ _ _ hnp,
      ih (fun z hz => hpre z (List.mem_cons_of_mem _ hz)), List.cons_append]

theorem pyReplaceAll_head (s d rep : Str) (hd0 : d ≠ []) :
    pyReplaceAll (d ++ s) d rep = rep ++ pyReplaceAll s d rep := by
  rw [pyReplaceAll_match (d ++ s) d rep hd0
    (List.isPrefixOf_iff_prefix.mpr (List.prefix_append d s)), List.drop_left]

theorem pyReplaceAll_no_digit (s d rep : Str) (hs : ∀ x ∈ s, x.isDigit = false)
    (hd0 : d ≠ []) (hd : ∀ x ∈ d, x.isDigit = true) :
    pyReplaceAll s d rep = s := by
  have h := pyReplaceAll_append_no_digit s [] d rep hs hd0 hd
  rw [List.append_nil, pyReplaceAll_nil, List.append_nil] at h
  exact h

end RegexLemmas

/--
C5: for every non-empty digit string `d`, a reason of the exact shape
`"Skipped until Bug: <d> is resolved."` is rewritten in place: the digit
run is replaced by `https://launchpad.net/bugs/<d>` and all surrounding
text is preserved (the surrounding text contains no digits, so the
global substitution touches only the bug number), and the resulting
details text contains the link and the rest of the sentence.
-/
theorem claim_C5 (d : Str) (hd0 : d ≠ []) (hd : ∀ x ∈ d, x.isDigit = true) :
    rewriteReason ("Skipped until Bug: ".toList ++ (d ++ " is resolved.".toList)) =
      "Skipped until Bug: ".toList ++ (lpBugLink d ++ " is resolved.".toList) ∧
    detailsOf ("Skipped until Bug: ".toList ++ (d ++ " is resolved.".toList)) [] =
      some ("Skipped until Bug: ".toList ++ (lpBugLink d ++ " is resolved.".toList)) := by
  have hcan : skipMatch ("Skipped until Bug: ".toList ++
      (d ++ " is resolved.".toList)) = some d := by
    rw [show " is resolved.".toList = " is resolved".toList ++ '.' :: [] from by decide]
    exact skipMatch_canonical d '.' [] hd0 hd (by decide)
  have hne : "Skipped until Bug: ".toList ++ (d ++ " is resolved.".toList) ≠ [] := by
    simp [List.append_eq_nil]
  have hrw : rewriteReason ("Skipped until Bug: ".toList ++
      (d ++ " is resolved.".toList)) =
      "Skipped until Bug: ".toList ++ (lpBugLink d ++ " is resolved.".toList) := by
    unfold rewriteReason
    rw [if_neg hne, hcan]
    show pyReplaceAll ("Skipped until Bug: ".toList ++ (d ++ " is resolved.".toList))
        d (lpBugLink d) =
      "Skipped until Bug: ".toList ++ (lpBugLink d ++ " is resolved.".toList)
    rw [pyReplaceAll_append_no_digit _ _ _ _ (by decide) hd0 hd,
      pyReplaceAll_head _ _ _ hd0,
      pyReplaceAll_no_digit _ _ _ (by decide) hd0 hd]
  refine ⟨hrw, ?_⟩
  simp only [detailsOf]
  rw [hrw]
  rw [if_neg (show ¬(("Skipped until Bug: ".toList ++
      (lpBugLink d ++ " is resolved.".toList)) ≠ [] ∧ ([] : Str) ≠ []) from by simp)]
  rw [show pyStrip [] = ([] : Str) from rfl, List.append_nil, List.append_nil]
  rw [if_neg (show ¬("Skipped until Bug: ".toList ++
      (lpBugLink d ++ " is resolved.".toList) = []) from by
    simp [List.append_eq_nil])]

theorem claim_C5_witness :
    rewriteReason "Skipped until Bug: 12345 is resolved.".toList =
      "Skipped until Bug: https://launchpad.net/bugs/12345 is resolved.".toList := by
  have h := (claim_C5 "12345".toList (by decide) (by decide)).1
  rw [show "Skipped until Bug: 12345 is resolved.".toList =
    "Skipped until Bug: ".toList ++ ("12345".toList ++ " is resolved.".toList)
    from by decide, h]
  decide

/--
C10 counterexample: the final `.` of the skip pattern does not match a
newline, so a reason ending in a newline right after `"resolved"` is not
matched and not rewritten, contradicting the claim's "the final `.` of
the pattern matches any character".
-/
theorem claim_C10_counterexample :
    skipMatch "Skipped until Bug: 5 is resolved\n".toList = none ∧
    rewriteReason "Skipped until Bug: 5 is resolved\n".toList =
      "Skipped until Bug: 5 is resolved\n".toList := ⟨by decide, by decide⟩

/--
C10 (amended): the bug-link rewrite substitutes the matched digit string
globally over the whole reason, so every (non-overlapping) occurrence of
the digit sequence is replaced, not only the one after `"Bug:"`; the
skip pattern is anchored at the start only, so arbitrary trailing text
is permitted; and the final `.` of the pattern matches any single
character except a newline.
-/
theorem claim_C10 :
    rewriteReason "Skipped until Bug: 12 is resolved. Error code 12.".toList =
      ("Skipped until Bug: https://launchpad.net/bugs/12 is resolved. " ++
        "Error code https://launchpad.net/bugs/12.").toList ∧
    (∀ t : Str, skipMatch ("Skipped until Bug: 12 is resolved.".toList ++ t) =
      some "12".toList) ∧
    (∀ c : Char, ¬c = '\n' →
      skipMatch ("Skipped until Bug: 5 is resolved".toList ++ [c]) =
        some "5".toList) := by
  refine ⟨by decide, ?_, ?_⟩
  · intro t
    have hsplit : "Skipped until Bug: 12 is resolved.".toList ++ t =
        "Skipped until Bug: ".toList ++
          ("12".toList ++ (" is resolved".toList ++ '.' :: t)) := by
      rw [show "Skipped until Bug: 12 is resolved.".toList =
        "Skipped until Bug: ".toList ++
          ("12".toList ++ (" is resolved".toList ++ ['.'])) from by decide]
      simp [List.append_assoc]
    rw [hsplit]
    exact skipMatch_canonical "12".toList '.' t (by decide) (by decide) (by decide)
  · intro c hc
    have hsplit : "Skipped until Bug: 5 is resolved".toList ++ [c] =
        "Skipped until Bug: ".toList ++
          ("5".toList ++ (" is resolved".toList ++ c :: [])) := by
      rw [show "Skipped until Bug: 5 is resolved".toList =
        "Skipped until Bug: ".toList ++ ("5".toList ++ " is resolved".toList)
        from by decide]
      simp [List.append_assoc]
    rw [hsplit]
    exact skipMatch_canonical "5".toList c [] (by decide) (by decide) hc

theorem claim_C10_witness :
    skipMatch ("Skipped until Bug: 12 is resolved.".toList ++ " extra".toList) =
      some "12".toList ∧
    skipMatch ("Skipped until Bug: 5 is resolved".toList ++ ['!']) =
      some "5".toList :=
  ⟨claim_C10.2.1 " extra".toList, claim_C10.2.2 '!' (by decide)⟩

section DetailsLemmas

/-- The record written by the details pass for one input record: the
`duration` is untouched (still numeric) and `details` becomes an
explicit value, `none` standing for JSON `null`. -/
def mkDetailsRec (p : Str × RunRecord) : Str × HtmlRunRecord :=
  (p.1, { status := p.2.status, duration := .num p.2.duration
          details := p.2.details })

theorem htmlDetailsStep_eq (st : Bool × List (Str × HtmlRunRecord))
    (p : Str × RunRecord) :
    htmlDetailsStep st p =
      ((st.1 || p.2.details.isSome), st.2 ++ [mkDetailsRec p]) := by
  cases h : p.2.details with
  | none => simp [htmlDetailsStep, h, mkDetailsRec]
  | some d => simp [htmlDetailsStep, h, mkDetailsRec]

theorem htmlDetailsPass_fold (bv : List (Str × RunRecord)) :
    ∀ (b : Bool) (acc : List (Str × HtmlRunRecord)),
      bv.foldl htmlDetailsStep (b, acc) =
        ((b || bv.any (fun p => p.2.details.isSome)), acc ++ bv.map mkDetailsRec) := by
  induction bv with
  | nil =>
    intro b acc
    simp
  | cons p ps ih =>
    intro b acc
    rw [List.foldl_cons, htmlDetailsStep_eq, ih]
    simp [List.any_cons, Bool.or_assoc]

theorem htmlDetailsPass_fst (bv : List (Str × RunRecord)) :
    (htmlDetailsPass bv).1 = bv.any (fun p => p.2.details.isSome) := by
  unfold htmlDetailsPass
  rw [htmlDetailsPass_fold]
  simp

theorem htmlDetailsPass_snd (bv : List (Str × RunRecord)) :
    (htmlDetailsPass bv).2 = bv.map mkDetailsRec := by
  unfold htmlDetailsPass
  rw [htmlDetailsPass_fold]
  simp

theorem detailsOf_ne_empty (r tb : Str) : detailsOf r tb ≠ some [] := by
  intro h
  simp only [detailsOf] at h
  by_cases hd : rewriteReason r ++
      (if rewriteReason r ≠ [] ∧ tb ≠ [] then "\n\n".toList else []) ++
      pyStrip tb = []
  · rw [if_pos hd] at h
    cases h
  · rw [if_neg hd] at h
    injection h with h
    exact hd h

/-- Every `details` value stored by the aggregator is non-empty. -/
def TestsDetailsOK (tests : List (Str × TestEntry)) : Prop :=
  ∀ q ∈ tests, ∀ p ∈ q.2.by_verification, p.2.details ≠ some []

theorem processTest_detailsOK (u : Str) (tests : List (Str × TestEntry))
    (tid : Str) (res : TestResult) (h : TestsDetailsOK tests) :
    TestsDetailsOK (processTest u tests tid res) := by
  have h1 : TestsDetailsOK (if hasKey tests tid then tests
      else tests ++ [(tid, { tags := sortTags res.tags, name := res.name,
                             by_verification := [] })]) := by
    by_cases hk : hasKey tests tid
    · rw [if_pos hk]
      exact h
    · rw [if_neg hk]
      intro q hq p hp
      rcases List.mem_append.mp hq with hq | hq
      · exact h q hq p hp
      · simp only [List.mem_singleton] at hq
        rw [hq] at hp
        exact absurd hp (List.not_mem_nil p)
  simp only [processTest]
  intro q hq p hp
  obtain ⟨q', hq', hqq⟩ := List.mem_map.mp hq
  by_cases hq1 : q'.1 == tid
  · rw [if_pos hq1] at hqq
    rw [← hqq] at hp
    rcases mem_alistSet hp with hmem | hval
    · exact h1 q' hq' p hmem
    · rw [hval]
      exact detailsOf_ne_empty _ _
  · rw [if_neg hq1] at hqq
    rw [← hqq] at hp
    exact h1 q' hq' p hp

theorem foldTests_detailsOK (u : Str) (ps : List (Str × TestResult)) :
    ∀ tests, TestsDetailsOK tests →
      TestsDetailsOK (ps.foldl (fun ts p => processTest u ts p.1 p.2) tests) := by
  induction ps with
  | nil => intro tests h; exact h
  | cons q qs ih =>
    intro tests h
    rw [List.foldl_cons]
    exact ih _ (processTest_detailsOK _ _ _ _ h)

theorem aggTests_detailsOK (runs : List VerificationRun) :
    TestsDetailsOK (aggTests runs) := by
  suffices h : ∀ init, TestsDetailsOK init → TestsDetailsOK (runs.foldl addRun init) by
    exact h [] (fun q hq => absurd hq (List.not_mem_nil q))
  induction runs with
  | nil => intro init h; exact h
  | cons v vs ih =>
    intro init h
    rw [List.foldl_cons]
    exact ih _ (foldTests_detailsOK _ _ _ h)

theorem get?_mem {α : Type} {l : List (Str × α)} {k : Str} {v : α}
    (h : alistGet? l k = some v) : (k, v) ∈ l := by
  unfold alistGet? at h
  cases hf : l.find? (fun p => p.1 == k) with
  | none => rw [hf] at h; cases h
  | some a =>
    rw [hf] at h
    injection h with h2
    have hm := List.mem_of_find?_eq_some hf
    have hp := List.find?_some hf
    rw [beq_iff_eq] at hp
    have ha : a = (k, v) := by
      cases a with
      | mk a1 a2 =>
        simp only at hp h2
        rw [hp, h2]
    rw [← ha]
    exact hm

theorem alistUpdate_details_pred (Q : Option Str → Prop)
    (l : List (Str × HtmlRunRecord)) (hl : ∀ p ∈ l, Q p.2.details)
    (k : Str) (f : HtmlRunRecord → HtmlRunRecord)
    (hf : ∀ r, (f r).details = r.details) :
    ∀ p ∈ alistUpdate l k f, Q p.2.details := by
  intro p hp
  obtain ⟨p0, hp0, hpe⟩ := List.mem_map.mp hp
  by_cases h1 : p0.1 == k
  · rw [if_pos h1] at hpe
    rw [← hpe]
    show Q (f p0.2).details
    rw [hf]
    exact hl p0 hp0
  · rw [if_neg h1] at hpe
    rw [← hpe]
    exact hl p0 hp0

theorem htmlDurStep_eq_none (frepr : ℚ → Str) (durs : List DurEntry)
    (bv : List (Str × HtmlRunRecord)) (u : Str) (h : alistGet? bv u = none) :
    htmlDurStep frepr (durs, bv) u = (durs, bv) := by
  unfold htmlDurStep
  rw [show alistGet? (durs, bv).2 u = none from h]

theorem htmlDurStep_eq_str (frepr : ℚ → Str) (durs : List DurEntry)
    (bv : List (Str × HtmlRunRecord)) (u : Str) (rec : HtmlRunRecord) (s : Str)
    (h : alistGet? bv u = some rec) (hs : rec.duration = .str s) :
    htmlDurStep frepr (durs, bv) u = (durs, bv) := by
  unfold htmlDurStep
  rw [show alistGet? (durs, bv).2 u = some rec from h]
  show (match rec.duration with
        | DurationOut.str _ => ((durs, bv) : List DurEntry × List (Str × HtmlRunRecord))
        | DurationOut.num q => htmlDurStepNum frepr durs bv u q) = (durs, bv)
  rw [hs]

theorem htmlDurStep_eq_num (frepr : ℚ → Str) (durs : List DurEntry)
    (bv : List (Str × HtmlRunRecord)) (u : Str) (rec : HtmlRunRecord) (q : ℚ)
    (h : alistGet? bv u = some rec) (hq : rec.duration = .num q) :
    htmlDurStep frepr (durs, bv) u = htmlDurStepNum frepr durs bv u q := by
  unfold htmlDurStep
  rw [show alistGet? (durs, bv).2 u = some rec from h]
  show (match rec.duration with
        | DurationOut.str _ => ((durs, bv) : List DurEntry × List (Str × HtmlRunRecord))
        | DurationOut.num q => htmlDurStepNum frepr durs bv u q) =
    htmlDurStepNum frepr durs bv u q
  rw [hq]

theorem htmlDurStepNum_details (Q : Option Str → Prop) (frepr : ℚ → Str)
    (durs : List DurEntry) (bv : List (Str × HtmlRunRecord)) (u : Str) (q : ℚ)
    (h : ∀ p ∈ bv, Q p.2.details) :
    ∀ p ∈ (htmlDurStepNum frepr durs bv u q).2, Q p.2.details := by
  unfold htmlDurStepNum
  cases durs with
  | nil =>
    by_cases hsmall : q < mkRat 1 1000
    · simp only [if_pos hsmall]
      apply alistUpdate_details_pred Q bv h
      exact fun r => rfl
    · simp only [if_neg hsmall]
      exact h
  | cons d0 ds =>
    by_cases hsmall : q < mkRat 1 1000
    · simp only [if_pos hsmall]
      by_cases hz : durIsZeroStr d0 = true ∧ durIsZeroStr DurEntry.zeroStr = true
      · simp only [if_pos hz]
        apply alistUpdate_details_pred Q bv h
        exact fun r => rfl
      · simp only [if_neg hz]
        apply alistUpdate_details_pred Q
        · apply alistUpdate_details_pred Q bv h
          exact fun r => rfl
        · exact fun r => rfl
    · simp only [if_neg hsmall]
      by_cases hz : durIsZeroStr d0 = true ∧ durIsZeroStr (DurEntry.num q) = true
      · simp only [if_pos hz]
        exact h
      · simp only [if_neg hz]
        apply alistUpdate_details_pred Q bv h
        exact fun r => rfl

theorem htmlDurStep_details (Q : Option Str → Prop) (frepr : ℚ → Str)
    (durs : List DurEntry) (bv : List (Str × HtmlRunRecord)) (u : Str)
    (h : ∀ p ∈ bv, Q p.2.details) :
    ∀ p ∈ (htmlDurStep frepr (durs, bv) u).2, Q p.2.details := by
  cases hg : alistGet? bv u with
  | none =>
    rw [htmlDurStep_eq_none frepr durs bv u hg]
    exact h
  | some rec =>
    cases hd : rec.duration with
    | str s =>
      rw [htmlDurStep_eq_str frepr durs bv u rec s hg hd]
      exact h
    | num q =>
      rw [htmlDurStep_eq_num frepr durs bv u rec q hg hd]
      exact htmlDurStepNum_details Q frepr durs bv u q h

theorem durPass_details (Q : Option Str → Prop) (frepr : ℚ → Str)
    (ws : List Str) :
    ∀ st : List DurEntry × List (Str × HtmlRunRecord),
      (∀ p ∈ st.2, Q p.2.details) →
      ∀ p ∈ (ws.foldl (htmlDurStep frepr) st).2, Q p.2.details := by
  induction ws with
  | nil => exact fun st h => h
  | cons w rest ih =>
    intro st h
    rw [List.foldl_cons]
    exact ih _ (htmlDurStep_details Q frepr st.1 st.2 w h)

end DetailsLemmas

/--
C8: for every test entry of the aggregated report, the HTML pass sets
`has_details` to true exactly when at least one per-run record carries a
non-empty details value (the aggregator never stores an empty one), and
when `has_details` is false every post-processed per-run record carries
the explicit null details marker.
-/
theorem claim_C8 (frepr : ℚ → Str) (runs : List VerificationRun) (tid : Str)
    (e : TestEntry)
    (he : alistGet? (jsonGenerateRaw runs).tests tid = some e) :
    ((htmlProcessEntry frepr
        ((jsonGenerateRaw runs).verifications.map Prod.fst) e).1.has_details = true ↔
      ∃ p ∈ e.by_verification, ∃ d, p.2.details = some d ∧ d ≠ []) ∧
    ((htmlProcessEntry frepr
        ((jsonGenerateRaw runs).verifications.map Prod.fst) e).1.has_details = false →
      ∀ p ∈ (htmlProcessEntry frepr
        ((jsonGenerateRaw runs).verifications.map Prod.fst) e).1.by_verification,
        p.2.details = none) := by
  have hok : ∀ p ∈ e.by_verification, p.2.details ≠ some [] := by
    have h1 := aggTests_detailsOK runs
    rw [← jsonGenerateRaw_tests] at h1
    exact fun p hp => h1 (tid, e) (get?_mem he) p hp
  have hhd : (htmlProcessEntry frepr
      ((jsonGenerateRaw runs).verifications.map Prod.fst) e).1.has_details =
      (htmlDetailsPass e.by_verification).1 := rfl
  constructor
  · rw [hhd, htmlDetailsPass_fst]
    constructor
    · intro hany
      obtain ⟨p, hp, hsome⟩ := List.any_eq_true.mp hany
      obtain ⟨d, hd⟩ := Option.isSome_iff_exists.mp hsome
      refine ⟨p, hp, d, hd, ?_⟩
      intro hdnil
      exact hok p hp (by rw [hd, hdnil])
    · rintro ⟨p, hp, d, hd, _⟩
      refine List.any_eq_true.mpr ⟨p, hp, ?_⟩
      rw [hd]
      rfl
  · intro hfalse p hp
    rw [hhd, htmlDetailsPass_fst] at hfalse
    have hallnone : ∀ p' ∈ (htmlDetailsPass e.by_verification).2,
        p'.2.details = none := by
      rw [htmlDetailsPass_snd]
      intro p' hp'
      obtain ⟨p0, hp0, hpe⟩ := List.mem_map.mp hp'
      rw [← hpe]
      show p0.2.details = none
      have h0 := List.any_eq_false.mp hfalse p0 hp0
      cases hc : p0.2.details with
      | none => rfl
      | some d => exact absurd (by rw [hc]; rfl) h0
    exact durPass_details (fun d => d = none) frepr
      ((jsonGenerateRaw runs).verifications.map Prod.fst)
      ([], (htmlDetailsPass e.by_verification).2) hallnone p hp

/-- The aggregated entry for test `"t"` of `demoRunsC1`. -/
def demoEntry : TestEntry :=
  { tags := [], name := "n".toList,
    by_verification :=
      [("a".toList, { status := "success".toList, duration := mkRat 1 2000,
                      details := none }),
       ("b".toList, { status := "success".toList, duration := 2,
                      details := none })] }

theorem claim_C8_witness :
    ((htmlProcessEntry sampleRepr
        ((jsonGenerateRaw demoRunsC1).verifications.map Prod.fst)
        demoEntry).1.has_details = false) ∧
    (∀ p ∈ (htmlProcessEntry sampleRepr
        ((jsonGenerateRaw demoRunsC1).verifications.map Prod.fst)
        demoEntry).1.by_verification, p.2.details = none) := by
  have h := claim_C8 sampleRepr demoRunsC1 "t".toList demoEntry (by decide)
  have hfalse : (htmlProcessEntry sampleRepr
      ((jsonGenerateRaw demoRunsC1).verifications.map Prod.fst)
      demoEntry).1.has_details = false := by decide
  exact ⟨hfalse, h.2 hfalse⟩

section DurPassLemmas

/-- The durations-list entry recorded for a raw duration `q`: the literal
string `"0"` when below the threshold, otherwise the float itself. -/
def adjE (q : ℚ) : DurEntry :=
  if q < mkRat 1 1000 then .zeroStr else .num q

/-- The final `duration` field written for an occurrence with raw
duration `q`, as a function of the head of the durations list at visit
time (`none` = this is the first occurrence). -/
def durStepField (frepr : ℚ → Str) (first? : Option DurEntry) (q : ℚ) :
    DurationOut :=
  let base : DurationOut := if q < mkRat 1 1000 then .str [] else .num q
  match first? with
  | none => base
  | some d0 =>
    if durIsZeroStr d0 = true ∧ durIsZeroStr (adjE q) = true then base
    else
      .str (durEntryStr frepr (adjE q) ++ " (".toList ++
        (if 0 ≤ ratSub (durFloat (adjE q)) (durFloat d0) then "+".toList else []) ++
        frepr (ratSub (durFloat (adjE q)) (durFloat d0)) ++ ")".toList)

theorem durStepField_none (frepr : ℚ → Str) (q : ℚ) :
    durStepField frepr none q =
      (if q < mkRat 1 1000 then DurationOut.str [] else .num q) := rfl

theorem durStepField_some (frepr : ℚ → Str) (d0 : DurEntry) (q : ℚ) :
    durStepField frepr (some d0) q =
      (if durIsZeroStr d0 = true ∧ durIsZeroStr (adjE q) = true then
        (if q < mkRat 1 1000 then DurationOut.str [] else .num q)
      else
        .str (durEntryStr frepr (adjE q) ++ " (".toList ++
          (if 0 ≤ ratSub (durFloat (adjE q)) (durFloat d0) then "+".toList
           else []) ++
          frepr (ratSub (durFloat (adjE q)) (durFloat d0)) ++ ")".toList)) := rfl

theorem htmlDurStepNum_char (frepr : ℚ → Str) (durs : List DurEntry)
    (bv : List (Str × HtmlRunRecord)) (u : Str) (rec : HtmlRunRecord) (q : ℚ)
    (h : alistGet? bv u = some rec) (hq : rec.duration = .num q) :
    (htmlDurStepNum frepr durs bv u q).1 = durs ++ [adjE q] ∧
    alistGet? (htmlDurStepNum frepr durs bv u q).2 u =
      some { rec with duration := durStepField frepr durs.head? q } ∧
    (∀ w, w ≠ u →
      alistGet? (htmlDurStepNum frepr durs bv u q).2 w = alistGet? bv w) := by
  unfold htmlDurStepNum
  cases durs with
  | nil =>
    simp only [List.head?_nil]
    by_cases hsmall : q < mkRat 1 1000
    · have hadj : adjE q = DurEntry.zeroStr := by simp [adjE, hsmall]
      simp only [if_pos hsmall]
      refine ⟨?_, ?_, ?_⟩
      · show ([] : List DurEntry) ++ [DurEntry.zeroStr] = [] ++ [adjE q]
        rw [hadj]
      · rw [alistGet?_alistUpdate_self, h, durStepField_none, if_pos hsmall]
        rfl
      · intro w hw
        rw [alistGet?_alistUpdate_other _ hw]
    · have hadj : adjE q = DurEntry.num q := by simp [adjE, hsmall]
      simp only [if_neg hsmall]
      refine ⟨?_, ?_, ?_⟩
      · show ([] : List DurEntry) ++ [DurEntry.num q] = [] ++ [adjE q]
        rw [hadj]
      · have heta : ({ rec with duration := DurationOut.num q } : HtmlRunRecord) = rec := by
          rw [← hq]
        rw [h, durStepField_none, if_neg hsmall, heta]
      · intro w hw
        trivial
  | cons d0 ds =>
    simp only [List.head?_cons]
    by_cases hsmall : q < mkRat 1 1000
    · have hadj : adjE q = DurEntry.zeroStr := by simp [adjE, hsmall]
      simp only [if_pos hsmall]
      by_cases hz : durIsZeroStr d0 = true ∧ durIsZeroStr DurEntry.zeroStr = true
      · simp only [if_pos hz]
        refine ⟨?_, ?_, ?_⟩
        · show (d0 :: ds) ++ [DurEntry.zeroStr] = (d0 :: ds) ++ [adjE q]
          rw [hadj]
        · rw [alistGet?_alistUpdate_self, h, durStepField_some, hadj,
            if_pos hz, if_pos hsmall]
          rfl
        · intro w hw
          rw [alistGet?_alistUpdate_other _ hw]
      · simp only [if_neg hz]
        refine ⟨?_, ?_, ?_⟩
        · show (d0 :: ds) ++ [DurEntry.zeroStr] = (d0 :: ds) ++ [adjE q]
          rw [hadj]
        · rw [alistGet?_alistUpdate_self, alistGet?_alistUpdate_self, h,
            durStepField_some, hadj, if_neg hz]
          rfl
        · intro w hw
          rw [alistGet?_alistUpdate_other _ hw, alistGet?_alistUpdate_other _ hw]
    · have hadj : adjE q = DurEntry.num q := by simp [adjE, hsmall]
      simp only [if_neg hsmall]
      by_cases hz : durIsZeroStr d0 = true ∧ durIsZeroStr (DurEntry.num q) = true
      · exact absurd hz.2 (by simp [durIsZeroStr])
      · simp only [if_neg hz]
        refine ⟨?_, ?_, ?_⟩
        · show (d0 :: ds) ++ [DurEntry.num q] = (d0 :: ds) ++ [adjE q]
          rw [hadj]
        · rw [alistGet?_alistUpdate_self, h, durStepField_some, hadj, if_neg hz]
          rfl
        · intro w hw
          rw [alistGet?_alistUpdate_other _ hw]

theorem htmlDurStep_other (frepr : ℚ → Str) (durs : List DurEntry)
    (bv : List (Str × HtmlRunRecord)) (w u : Str) (hne : u ≠ w) :
    alistGet? (htmlDurStep frepr (durs, bv) w).2 u = alistGet? bv u := by
  cases hg : alistGet? bv w with
  | none => rw [htmlDurStep_eq_none frepr durs bv w hg]
  | some rec =>
    cases hd : rec.duration with
    | str s => rw [htmlDurStep_eq_str frepr durs bv w rec s hg hd]
    | num q =>
      rw [htmlDurStep_eq_num frepr durs bv w rec q hg hd]
      exact (htmlDurStepNum_char frepr durs bv w rec q hg hd).2.2 u hne

theorem durPass_untouched (frepr : ℚ → Str) (ws : List Str) :
    ∀ (durs : List DurEntry) (bv : List (Str × HtmlRunRecord)) (u : Str),
      u ∉ ws →
      alistGet? ((ws.foldl (htmlDurStep frepr) (durs, bv))).2 u =
        alistGet? bv u := by
  induction ws with
  | nil => intro durs bv u _; rfl
  | cons w rest ih =>
    intro durs bv u hu
    rw [List.foldl_cons]
    have hne : u ≠ w := fun h => hu (by rw [h]; exact List.mem_cons_self _ _)
    have hrest : u ∉ rest := fun h => hu (List.mem_cons_of_mem _ h)
    have hstep := htmlDurStep_other frepr durs bv w u hne
    have hmain := ih (htmlDurStep frepr (durs, bv) w).1
      (htmlDurStep frepr (durs, bv) w).2 u hrest
    rw [show ((htmlDurStep frepr (durs, bv) w).1,
      (htmlDurStep frepr (durs, bv) w).2) = htmlDurStep frepr (durs, bv) w
      from rfl] at hmain
    rw [hmain, hstep]

/-- The adjusted duration a visit of `w` appends to the durations list
(`none` when `w` has no record or its duration was already replaced). -/
def visitEntry (bv : List (Str × HtmlRunRecord)) (w : Str) : Option DurEntry :=
  match alistGet? bv w with
  | some r =>
    match r.duration with
    | .num q => some (adjE q)
    | .str _ => none
  | none => none

def visitEntries (bv : List (Str × HtmlRunRecord)) (ws : List Str) :
    List DurEntry :=
  ws.filterMap (visitEntry bv)

theorem visitEntry_none (bv : List (Str × HtmlRunRecord)) (w : Str)
    (h : alistGet? bv w = none) : visitEntry bv w = none := by
  unfold visitEntry
  rw [h]

theorem visitEntry_str (bv : List (Str × HtmlRunRecord)) (w : Str)
    (r : HtmlRunRecord) (s : Str) (h : alistGet? bv w = some r)
    (hs : r.duration = .str s) : visitEntry bv w = none := by
  unfold visitEntry
  rw [h]
  show (match r.duration with
        | DurationOut.num q => some (adjE q)
        | DurationOut.str _ => none) = none
  rw [hs]

theorem visitEntry_num (bv : List (Str × HtmlRunRecord)) (w : Str)
    (r : HtmlRunRecord) (q : ℚ) (h : alistGet? bv w = some r)
    (hq : r.duration = .num q) : visitEntry bv w = some (adjE q) := by
  unfold visitEntry
  rw [h]
  show (match r.duration with
        | DurationOut.num q => some (adjE q)
        | DurationOut.str _ => none) = some (adjE q)
  rw [hq]

theorem visitEntries_nil (bv : List (Str × HtmlRunRecord)) :
    visitEntries bv [] = [] := rfl

theorem visitEntries_cons_none (bv : List (Str × HtmlRunRecord)) (w : Str)
    (ws : List Str) (h : visitEntry bv w = none) :
    visitEntries bv (w :: ws) = visitEntries bv ws := by
  unfold visitEntries
  rw [List.filterMap_cons, h]

theorem visitEntries_cons_some (bv : List (Str × HtmlRunRecord)) (w : Str)
    (ws : List Str) (a : DurEntry) (h : visitEntry bv w = some a) :
    visitEntries bv (w :: ws) = a :: visitEntries bv ws := by
  unfold visitEntries
  rw [List.filterMap_cons, h]

theorem visitEntries_congr (bv bv' : List (Str × HtmlRunRecord)) (ws : List Str)
    (h : ∀ w ∈ ws, alistGet? bv' w = alistGet? bv w) :
    visitEntries bv' ws = visitEntries bv ws := by
  induction ws with
  | nil => rfl
  | cons w rest ih =>
    have hw : visitEntry bv' w = visitEntry bv w := by
      unfold visitEntry
      rw [h w (List.mem_cons_self _ _)]
    have ih' := ih (fun w' hw' => h w' (List.mem_cons_of_mem _ hw'))
    unfold visitEntries at ih' ⊢
    rw [List.filterMap_cons, List.filterMap_cons, hw, ih']

/--
Characterization of a test's per-run duration field after the durations
loop: the field written for the visit of `u` is `durStepField` of the
head of the durations list at visit time, which consists of the initial
list followed by the adjusted durations of the occurrences visited
strictly before `u`.
-/
theorem durPass_field (frepr : ℚ → Str) (ws : List Str) :
    ∀ (durs : List DurEntry) (bv : List (Str × HtmlRunRecord)) (u : Str)
      (rec : HtmlRunRecord) (q : ℚ),
      ws.Nodup → u ∈ ws →
      alistGet? bv u = some rec → rec.duration = .num q →
      alistGet? (ws.foldl (htmlDurStep frepr) (durs, bv)).2 u =
        some { rec with duration := durStepField frepr (durs ++ visitEntries bv (ws.takeWhile (fun w => w != u))).head? q } := by
  induction ws with
  | nil =>
    intro durs bv u rec q _ hu
    exact absurd hu (List.not_mem_nil u)
  | cons w rest ih =>
    intro durs bv u rec q hnd hu h hq
    rw [List.foldl_cons]
    by_cases hw : w = u
    · subst hw
      rw [htmlDurStep_eq_num frepr durs bv w rec q h hq]
      obtain ⟨h1, h2, h3⟩ := htmlDurStepNum_char frepr durs bv w rec q h hq
      have hnr : w ∉ rest := (List.nodup_cons.mp hnd).1
      have hfold := durPass_untouched frepr rest
        (htmlDurStepNum frepr durs bv w q).1 (htmlDurStepNum frepr durs bv w q).2
        w hnr
      rw [show ((htmlDurStepNum frepr durs bv w q).1,
        (htmlDurStepNum frepr durs bv w q).2) = htmlDurStepNum frepr durs bv w q
        from rfl] at hfold
      rw [hfold, h2]
      have htw : (w :: rest).takeWhile (fun x => x != w) = [] := by
        rw [List.takeWhile_cons]
        simp
      rw [htw, visitEntries_nil, List.append_nil]
    · have hnu : u ≠ w := fun hh => hw hh.symm
      have htail : rest.Nodup := (List.nodup_cons.mp hnd).2
      have hu' : u ∈ rest := by
        rcases List.mem_cons.mp hu with h' | h'
        · exact absurd h'.symm hw
        · exact h'
      have hwtrue : (w != u) = true := bne_iff_ne.mpr hw
      have hwt : (w :: rest).takeWhile (fun x => x != u) =
          w :: rest.takeWhile (fun x => x != u) := by
        rw [List.takeWhile_cons, if_pos hwtrue]
      cases hgw : alistGet? bv w with
      | none =>
        rw [htmlDurStep_eq_none frepr durs bv w hgw]
        rw [ih durs bv u rec q htail hu' h hq]
        rw [hwt, visitEntries_cons_none bv w _ (visitEntry_none bv w hgw)]
      | some recw =>
        cases hdw : recw.duration with
        | str s =>
          rw [htmlDurStep_eq_str frepr durs bv w recw s hgw hdw]
          rw [ih durs bv u rec q htail hu' h hq]
          rw [hwt, visitEntries_cons_none bv w _ (visitEntry_str bv w recw s hgw hdw)]
        | num qw =>
          rw [htmlDurStep_eq_num frepr durs bv w recw qw hgw hdw]
          have h1 := (htmlDurStepNum_char frepr durs bv w recw qw hgw hdw).1
          have h3 := (htmlDurStepNum_char frepr durs bv w recw qw hgw hdw).2.2
          have hbvu : alistGet? (htmlDurStepNum frepr durs bv w qw).2 u = some rec := by
            rw [h3 u hnu, h]
          have hih := ih (htmlDurStepNum frepr durs bv w qw).1
            (htmlDurStepNum frepr durs bv w qw).2 u rec q htail hu' hbvu hq
          rw [show ((htmlDurStepNum frepr durs bv w qw).1,
            (htmlDurStepNum frepr durs bv w qw).2) =
            htmlDurStepNum frepr durs bv w qw from rfl] at hih
          rw [hih, h1]
          have hvis : visitEntries (htmlDurStepNum frepr durs bv w qw).2
              (rest.takeWhile (fun x => x != u)) =
              visitEntries bv (rest.takeWhile (fun x => x != u)) := by
            apply visitEntries_congr
            intro w' hw'
            have hmem : w' ∈ rest := List.takeWhile_subset _ hw'
            have hwne : w' ≠ w := fun hh => (List.nodup_cons.mp hnd).1 (hh ▸ hmem)
            exact h3 w' hwne
          rw [hvis, hwt,
            visitEntries_cons_some bv w _ (adjE qw)
              (visitEntry_num bv w recw qw hgw hdw),
            List.append_assoc, List.singleton_append]

/-- The final durations list is exactly the adjusted durations of the
visited occurrences, in visit order: a duration below 0.001 enters the
comparison list as the literal string `"0"`. -/
theorem durPass_durations (frepr : ℚ → Str) (ws : List Str) :
    ∀ (durs : List DurEntry) (bv : List (Str × HtmlRunRecord)), ws.Nodup →
      (ws.foldl (htmlDurStep frepr) (durs, bv)).1 = durs ++ visitEntries bv ws := by
  induction ws with
  | nil =>
    intro durs bv _
    rw [visitEntries_nil, List.append_nil]
    rfl
  | cons w rest ih =>
    intro durs bv hnd
    rw [List.foldl_cons]
    have htail := (List.nodup_cons.mp hnd).2
    have hnr : w ∉ rest := (List.nodup_cons.mp hnd).1
    cases hgw : alistGet? bv w with
    | none =>
      rw [htmlDurStep_eq_none frepr durs bv w hgw, ih durs bv htail,
        visitEntries_cons_none bv w _ (visitEntry_none bv w hgw)]
    | some recw =>
      cases hdw : recw.duration with
      | str s =>
        rw [htmlDurStep_eq_str frepr durs bv w recw s hgw hdw, ih durs bv htail,
          visitEntries_cons_none bv w _ (visitEntry_str bv w recw s hgw hdw)]
      | num qw =>
        rw [htmlDurStep_eq_num frepr durs bv w recw qw hgw hdw]
        have h1 := (htmlDurStepNum_char frepr durs bv w recw qw hgw hdw).1
        have h3 := (htmlDurStepNum_char frepr durs bv w recw qw hgw hdw).2.2
        have hih := ih (htmlDurStepNum frepr durs bv w qw).1
          (htmlDurStepNum frepr durs bv w qw).2 htail
        rw [show ((htmlDurStepNum frepr durs bv w qw).1,
          (htmlDurStepNum frepr durs bv w qw).2) =
          htmlDurStepNum frepr durs bv w qw from rfl] at hih
        rw [hih, h1]
        have hvis : visitEntries (htmlDurStepNum frepr durs bv w qw).2 rest =
            visitEntries bv rest := by
          apply visitEntries_congr
          intro w' hw'
          exact h3 w' (fun hh => hnr (hh ▸ hw'))
        rw [hvis,
          visitEntries_cons_some bv w _ (adjE qw)
            (visitEntry_num bv w recw qw hgw hdw),
          List.append_assoc, List.singleton_append]

end DurPassLemmas

/--
C1 counterexample: for a test with durations `[0.0005, 2.0]` across two
runs, the first run's duration has already been replaced by the string
`"0"` when the diff is computed, so the second run renders as
`"2.0 (+2.0)"`, not `"2.0 (+1.9995)"` as the claim's subtraction of the
raw first value would give.
-/
theorem claim_C1_counterexample :
    durationFieldOf (htmlGenerateReport sampleRepr demoRunsC1) "t".toList
      "b".toList = some (DurationOut.str "2.0 (+2.0)".toList) ∧
    DurationOut.str "2.0 (+2.0)".toList ≠
      DurationOut.str "2.0 (+1.9995)".toList := ⟨by decide, by decide⟩

/--
C1 (amended): in the HTML duration comparison, for every test and every
run after the first in which the test appeared, unless both the first
run's and this run's adjusted durations are `"0"`, the rendered field is
`"<adjusted this> (+<diff>)"` (`"("` without `"+"` for a negative diff)
where `diff` subtracts the first run's ADJUSTED duration — the value
after the below-0.001 replacement by the string `"0"` (read as 0) — from
this run's adjusted duration; so for durations `[0.0005, 2.0]` the
second run renders `"2.0 (+2.0)"`.
-/
theorem claim_C1 (frepr : ℚ → Str) (uuids : List Str)
    (bv : List (Str × HtmlRunRecord)) (u : Str) (rec : HtmlRunRecord)
    (q : ℚ) (d0 : DurEntry)
    (hnd : uuids.Nodup) (hu : u ∈ uuids)
    (h : alistGet? bv u = some rec) (hq : rec.duration = .num q)
    (hfirst : (visitEntries bv (uuids.takeWhile (fun w => w != u))).head? =
      some d0)
    (hnz : ¬(durIsZeroStr d0 = true ∧ durIsZeroStr (adjE q) = true)) :
    alistGet? (htmlDurPass frepr uuids bv).2 u =
      some { rec with duration := DurationOut.str (durEntryStr frepr (adjE q) ++ " (".toList ++ (if 0 ≤ ratSub (durFloat (adjE q)) (durFloat d0) then "+".toList else []) ++ frepr (ratSub (durFloat (adjE q)) (durFloat d0)) ++ ")".toList) } := by
  have hh := durPass_field frepr uuids [] bv u rec q hnd hu h hq
  rw [List.nil_append, hfirst] at hh
  unfold htmlDurPass
  rw [hh, durStepField_some, if_neg hnz]

/-- The HTML-side records of `demoRunsC1`'s test, before the durations
pass. -/
def demoHtmlBv : List (Str × HtmlRunRecord) :=
  [("a".toList, { status := "success".toList,
                  duration := DurationOut.num (mkRat 1 2000), details := none }),
   ("b".toList, { status := "success".toList,
                  duration := DurationOut.num 2, details := none })]

theorem claim_C1_witness :
    alistGet? (htmlDurPass sampleRepr ["a".toList, "b".toList] demoHtmlBv).2
      "b".toList =
      some { status := "success".toList,
             duration := DurationOut.str "2.0 (+2.0)".toList,
             details := none } := by
  have h := claim_C1 sampleRepr ["a".toList, "b".toList] demoHtmlBv "b".toList
    { status := "success".toList, duration := DurationOut.num 2, details := none }
    2 DurEntry.zeroStr (by decide) (by decide) (by decide) (by decide)
    (by decide) (by decide)
  exact h.trans (by decide)

/--
C7 counterexample: for a test with durations `[2.0, 0.0005]`, the second
run's duration is below 0.001 and is first blanked, but the comparison
branch then overwrites the blank with `"0 (-2.0)"`, so the per-run
duration field of a below-threshold duration is NOT always the empty
string.
-/
theorem claim_C7_counterexample :
    durationFieldOf (htmlGenerateReport sampleRepr demoRunsC7) "t".toList
      "b".toList = some (DurationOut.str "0 (-2.0)".toList) ∧
    durationFieldOf (htmlGenerateReport sampleRepr demoRunsC7) "t".toList
      "b".toList ≠ some (DurationOut.str []) := ⟨by decide, by decide⟩

/--
C7 (amended): a per-run duration below 0.001 enters the comparison list
as the literal string `"0"` (third conjunct), and its rendered field is
blanked to the empty string when the run is the first occurrence of the
test (first conjunct) or when both the first and the current adjusted
durations are `"0"` (second conjunct) — in the latter case no
parenthetical diff is appended; when an earlier occurrence exists whose
adjusted duration is not `"0"`, the blank is overwritten by the diff
annotation (see the counterexample).
-/
theorem claim_C7 (frepr : ℚ → Str) (uuids : List Str)
    (bv : List (Str × HtmlRunRecord)) (u : Str) (rec : HtmlRunRecord) (q : ℚ)
    (hnd : uuids.Nodup) (hu : u ∈ uuids)
    (h : alistGet? bv u = some rec) (hq : rec.duration = .num q) :
    ((visitEntries bv (uuids.takeWhile (fun w => w != u))).head? = none →
      q < mkRat 1 1000 →
      alistGet? (htmlDurPass frepr uuids bv).2 u =
        some { rec with duration := DurationOut.str [] }) ∧
    (∀ d0, (visitEntries bv (uuids.takeWhile (fun w => w != u))).head? = some d0 →
      durIsZeroStr d0 = true → q < mkRat 1 1000 →
      alistGet? (htmlDurPass frepr uuids bv).2 u =
        some { rec with duration := DurationOut.str [] }) ∧
    (htmlDurPass frepr uuids bv).1 = visitEntries bv uuids := by
  have hh := durPass_field frepr uuids [] bv u rec q hnd hu h hq
  rw [List.nil_append] at hh
  refine ⟨?_, ?_, ?_⟩
  · intro hnone hsmall
    unfold htmlDurPass
    rw [hh, hnone, durStepField_none, if_pos hsmall]
  · intro d0 hsome hzero hsmall
    unfold htmlDurPass
    rw [hh, hsome, durStepField_some,
      if_pos ⟨hzero, by simp [adjE, durIsZeroStr, hsmall]⟩, if_pos hsmall]
  · unfold htmlDurPass
    rw [durPass_durations frepr uuids [] bv hnd, List.nil_append]

theorem claim_C7_witness :
    alistGet? (htmlDurPass sampleRepr ["a".toList]
      [("a".toList, { status := "success".toList,
                      duration := DurationOut.num (mkRat 1 2000),
                      details := none })]).2 "a".toList =
      some { status := "success".toList, duration := DurationOut.str [],
             details := none } := by
  have h := (claim_C7 sampleRepr ["a".toList]
    [("a".toList, { status := "success".toList,
                    duration := DurationOut.num (mkRat 1 2000),
                    details := none })] "a".toList
    { status := "success".toList, duration := DurationOut.num (mkRat 1 2000),
      details := none }
    (mkRat 1 2000) (by decide) (by decide) (by decide) (by decide)).1
    (by decide) (by decide)
  exact h.trans (by decide)
